import Mathlib

/-! # omp-samp-bigint: 64-bit integers stored in two 32-bit AMX cells

A shallow embedding of `bigint_common.hpp`, the codec and the plugin natives
built on it, and of the two open.mp wrappers of `main.cpp` that compute
something else than the native of the same name.

Conventions of the embedding.

* A machine integer is the mathematical integer it denotes (`Int`); every
  conversion of the source (`static_cast`, the implicit conversions of the
  arithmetic operators) is an explicit reduction into the range of the target type.
* The data segment of the script is a map from cell index to cell value
  (`Mem`); a `cell*` is a cell index, `p[0]` is `m p` and `p[1]` is `m (p + 1)`.
  Two pairs may therefore coincide or overlap, as they may in a script.
* `amx_GetAddr` belongs to the host SDK; it is taken to resolve every address
  it is given, so a native parameter that holds an address is the cell index.
* `+`, `-` and `*` on `int64_t` wrap modulo `2^64`, which is what every target
  of the plugin computes and what the natives are written to rely on. `/` and
  `%` truncate toward zero; they have no result when the divisor is zero or when
  the quotient is not an `int64_t` (`INT64_MIN / -1`: undefined in C++, a
  hardware trap where the division is a single instruction), which the model
  renders as `none`.
* `std::stoll` and `std::to_string` are the standard library's; they are
  modelled as the C++ standard defines them (`strtoll` in base 10, with `none`
  for a thrown exception; the text of `%lld`).
* A text parameter is the list of characters the host reads from the script.
  The host's string write `amx_SetString` is a parameter of `ToString`; a model
  of it, from the spec, serves where a concrete one is needed.
-/

/-- Smallest `int32_t`, `std::numeric_limits<int32_t>::min()`. -/
def INT32_MIN : Int := -2147483648

/-- Largest `int32_t`, `std::numeric_limits<int32_t>::max()`. -/
def INT32_MAX : Int := 2147483647

/-- Smallest `int64_t`. -/
def INT64_MIN : Int := -9223372036854775808

/-- Largest `int64_t`. -/
def INT64_MAX : Int := 9223372036854775807

/-- The integer is a value of `int32_t` (of a `cell`). -/
def IsInt32 (x : Int) : Prop := INT32_MIN ≤ x ∧ x ≤ INT32_MAX

/-- The integer is a value of `int64_t`. -/
def IsInt64 (x : Int) : Prop := INT64_MIN ≤ x ∧ x ≤ INT64_MAX

instance (x : Int) : Decidable (IsInt32 x) := by
  unfold IsInt32; infer_instance

instance (x : Int) : Decidable (IsInt64 x) := by
  unfold IsInt64; infer_instance

/-- Conversion to `uint32_t`: reduction modulo `2^32` into `[0, 2^32)`. -/
def toUInt32 (x : Int) : Int := x % 4294967296

/-- Conversion to `int32_t` (and to `cell`): reduction modulo `2^32` into
`[-2^31, 2^31)`. -/
def toInt32 (x : Int) : Int := (x + 2147483648) % 4294967296 - 2147483648

/-- Conversion to `uint64_t`: reduction modulo `2^64` into `[0, 2^64)`. -/
def toUInt64 (x : Int) : Int := x % 18446744073709551616

/-- Conversion to `int64_t`: reduction modulo `2^64` into `[-2^63, 2^63)`. -/
def toInt64 (x : Int) : Int :=
  (x + 9223372036854775808) % 18446744073709551616 - 9223372036854775808

/-- Bitwise `&` of two `int64_t` operands: the `&` of their two's-complement bit
patterns, read back as an `int64_t`. -/
def and64 (a b : Int) : Int :=
  toInt64 (Int.land (toUInt64 a) (toUInt64 b))

/-- Bitwise `|` of two `int64_t` operands: the `|` of their two's-complement bit
patterns, read back as an `int64_t`. -/
def or64 (a b : Int) : Int :=
  toInt64 (Int.lor (toUInt64 a) (toUInt64 b))

/-- Left shift `a << n` of an `int64_t`: multiplication by `2^n`, kept to 64 bits. -/
def shl64 (a : Int) (n : Nat) : Int := toInt64 (a * 2 ^ n)

/-- Right shift `a >> n` of an `int64_t` (arithmetic): the floor of `a / 2^n`. -/
def sar64 (a : Int) (n : Nat) : Int := a / 2 ^ n

/-- Right shift `a >> n` of a `uint64_t`. -/
def shr64 (a : Int) (n : Nat) : Int := toUInt64 a / 2 ^ n

/-- `a + b` on `int64_t`. -/
def add64 (a b : Int) : Int := toInt64 (a + b)

/-- `a - b` on `int64_t`. -/
def sub64 (a b : Int) : Int := toInt64 (a - b)

/-- `a * b` on `int64_t`. -/
def mul64 (a b : Int) : Int := toInt64 (a * b)

/-- `a / b` on `int64_t`: the quotient truncated toward zero; no result for a
zero divisor or for `INT64_MIN / -1`. -/
def div64 (a b : Int) : Option Int :=
  if b = 0 ∨ (a = INT64_MIN ∧ b = -1) then none else some (Int.tdiv a b)

/-- `a % b` on `int64_t`: the remainder of the truncated division; no result
where `a / b` has none. -/
def mod64 (a b : Int) : Option Int :=
  if b = 0 ∨ (a = INT64_MIN ∧ b = -1) then none else some (Int.tmod a b)

/-- The data segment: cell index to cell value. -/
abbrev Mem := Nat → Int

/-- Assignment `p[0] = v` through a `cell*`. -/
def storeCell (m : Mem) (p : Nat) (v : Int) : Mem :=
  fun q => if q = p then v else m q

/-- Every cell of the data segment holds a 32-bit value. -/
def CellsOK (m : Mem) : Prop := ∀ q, IsInt32 (m q)

/-- `GetBigIntPtr(amx, param)`: the address in `param`, resolved. -/
def GetBigIntPtr (_amx : Mem) (param : Nat) : Nat := param

/-- `BigInt_Read(p)`. -/
def BigInt_Read (m : Mem) (p : Nat) : Int :=
  let lo := toUInt32 (m p)
  let hi := toInt32 (m (p + 1))
  or64 (shl64 hi 32) lo

/-- `BigInt_Write(p, v)`. -/
def BigInt_Write (m : Mem) (p : Nat) (v : Int) : Mem :=
  let lo := toUInt32 (and64 v 4294967295)
  let hi := toInt32 (sar64 v 32)
  let m1 := storeCell m p (toInt32 lo)
  storeCell m1 (p + 1) (toInt32 hi)

/-- `BigInt_ReadU(p)`. -/
def BigInt_ReadU (m : Mem) (p : Nat) : Int :=
  let lo := toUInt32 (m p)
  let hi := toUInt32 (m (p + 1))
  toUInt64 (Int.lor (toUInt64 (hi * 2 ^ 32)) (toUInt64 lo))

/-- `BigInt_WriteU(p, v)`. -/
def BigInt_WriteU (m : Mem) (p : Nat) (v : Int) : Mem :=
  let lo := toUInt32 (Int.land (toUInt64 v) 4294967295)
  let hi := toUInt32 (shr64 v 32)
  let m1 := storeCell m p (toInt32 lo)
  storeCell m1 (p + 1) (toInt32 hi)

/-! ### `std::stoll` -/

/-- `isspace` in the "C" locale: space, `\t`, `\n`, `\v`, `\f`, `\r`. -/
def isspace (c : Char) : Bool := c.toNat = 32 || (9 ≤ c.toNat && c.toNat ≤ 13)

/-- `isdigit`: `0` to `9`. -/
def isdigit (c : Char) : Bool := 48 ≤ c.toNat && c.toNat ≤ 57

/-- The number written by a run of decimal digits, most significant first. -/
def digitsValue (ds : List Char) : Nat :=
  ds.foldl (fun acc c => 10 * acc + (c.toNat - 48)) 0

/-- The value of a digit run with its sign. -/
def signedValue (neg : Bool) (ds : List Char) : Int :=
  if neg then -(digitsValue ds : Int) else (digitsValue ds : Int)

/-- `std::stoll(str)` (base 10, no position output), as the C++ standard defines
it through `strtoll`: leading white space is skipped, one sign is taken if
present, then the longest run of decimal digits is converted and what follows
it is ignored. `none` stands for the two exceptions: `std::invalid_argument`
when there is no digit to convert, `std::out_of_range` when the value is not a
`long long`. -/
def stoll (str : List Char) : Option Int :=
  let s := str.dropWhile isspace
  let neg : Bool := s.head? == some '-'
  let s := match s with
    | c :: r => if c = '-' ∨ c = '+' then r else c :: r
    | [] => []
  let ds := s.takeWhile isdigit
  if ds = [] then none
  else
    let v := signedValue neg ds
    if INT64_MIN ≤ v ∧ v ≤ INT64_MAX then some v else none

/-- The shape of a text that `std::stoll` converts: white space, then an optional
sign (`neg` tells whether it is `-`), then the non-empty run of decimal digits
`ds`, then a rest that does not begin with a digit. -/
def HasIntegerPrefix (str : List Char) (neg : Bool) (ds : List Char) : Prop :=
  ∃ ws sg rest, str = ws ++ (sg ++ (ds ++ rest)) ∧
    (∀ c ∈ ws, isspace c = true) ∧
    ((sg = [] ∧ neg = false) ∨ (sg = ['+'] ∧ neg = false) ∨ (sg = ['-'] ∧ neg = true)) ∧
    ds ≠ [] ∧ (∀ c ∈ ds, isdigit c = true) ∧
    (∀ c, rest.head? = some c → isdigit c = false)

/-! ### `std::to_string` and the host's string write -/

/-- The decimal digits of `n`, most significant first, by repeated division by
10; `fuel` bounds the number of digits produced. -/
def decimalDigits : Nat → Nat → List Char → List Char
  | 0, _, acc => acc
  | fuel + 1, n, acc =>
    if n / 10 = 0 then Char.ofNat (48 + n % 10) :: acc
    else decimalDigits fuel (n / 10) (Char.ofNat (48 + n % 10) :: acc)

/-- `std::to_string(v)` for a `long long`: the text of `%lld`, a `-` for a
negative value and then the decimal digits of the magnitude (at most 19 for a
64-bit value, so 20 steps are enough). -/
def to_string (v : Int) : List Char :=
  if v < 0 then '-' :: decimalDigits 20 v.natAbs [] else decimalDigits 20 v.natAbs []

/-- Consecutive cells from `dest` on receive the characters, one per cell. -/
def writeChars (m : Mem) (dest : Nat) : List Char → Mem
  | [] => m
  | c :: cs => writeChars (storeCell m dest (c.toNat : Int)) (dest + 1) cs

/-- Modelled from the spec: `amx_SetString(dest, source, 0, 0, size)` of the host
SDK, the string write the spec calls the host string-write primitive. The text
goes to `dest[0]`, `dest[1]`, ... one character per cell, truncated to
`size - 1` characters, and a cell 0 ends it. A `size` below 1 leaves no room for
the end cell; the spec says nothing of it and the model writes nothing then. -/
def amx_SetString (m : Mem) (dest : Nat) (source : List Char) (size : Int) : Mem :=
  if size < 1 then m
  else
    let len := min source.length (size.toNat - 1)
    storeCell (writeChars m dest (source.take len)) (dest + len) 0

/-! ### The natives of `bigint_common.hpp`

A native receives the data segment and its parameters (`params[1]`, `params[2]`,
`params[3]`) and yields the data segment it leaves together with the cell it
returns. A text parameter is given as the characters that `amx_StrLen` and
`amx_GetString` read from the script. -/

namespace BigIntNatives

/-- `BigInt_FromInt(BigInt:value[], v)`. -/
def FromInt (amx : Mem) (p1 : Nat) (p2 : Int) : Mem × Int :=
  let ptr := GetBigIntPtr amx p1
  (BigInt_Write amx ptr (toInt64 p2), 1)

/-- `BigInt_ToInt(const BigInt:value[])`. -/
def ToInt (amx : Mem) (p1 : Nat) : Mem × Int :=
  let arr := GetBigIntPtr amx p1
  let v := BigInt_Read amx arr
  let v := if v > INT32_MAX then INT32_MAX else v
  let v := if v < INT32_MIN then INT32_MIN else v
  (amx, toInt32 v)

/-- `BigInt_FromParts(BigInt:value[], lo, hi)`. -/
def FromParts (amx : Mem) (p1 : Nat) (p2 p3 : Int) : Mem × Int :=
  let ptr := GetBigIntPtr amx p1
  let lo := toUInt32 p2
  let hi := toInt32 p3
  let v := or64 (shl64 hi 32) lo
  (BigInt_Write amx ptr v, 1)

/-- `BigInt_GetParts(const BigInt:value[], &lo, &hi)`. -/
def GetParts (amx : Mem) (p1 p2 p3 : Nat) : Mem × Int :=
  let val := GetBigIntPtr amx p1
  let v := BigInt_Read amx val
  let lo := toUInt32 (and64 v 4294967295)
  let hi := toInt32 (sar64 v 32)
  let loAddr := p2
  let hiAddr := p3
  let m1 := storeCell amx loAddr (toInt32 lo)
  (storeCell m1 hiAddr (toInt32 hi), 1)

/-- `BigInt_FromString(BigInt:value[], const str[])`. -/
def FromString (amx : Mem) (p1 : Nat) (str : List Char) : Mem × Int :=
  let val := p1
  let len := str.length
  if len > 0 then
    match stoll str with
    | some parsed => (BigInt_Write amx val (toInt64 parsed), 1)
    | none => (amx, 0)
  else (amx, 0)

/-- `BigInt_ToString(const BigInt:value[], dest[], size)`. The host's
`amx_SetString` is the parameter `setString`: it is given the data segment, the
destination, the text and `params[3]`, and yields the data segment it leaves. -/
def ToString (setString : Mem → Nat → List Char → Int → Mem)
    (amx : Mem) (p1 p2 : Nat) (p3 : Int) : Mem × Int :=
  let val := GetBigIntPtr amx p1
  let v := BigInt_Read amx val
  let str := to_string v
  let destAddr := p2
  (setString amx destAddr str p3, toInt32 (str.length : Int))

/-- `BigInt_Add(BigInt:dst[], const BigInt:src[])`. -/
def Add (amx : Mem) (p1 p2 : Nat) : Mem × Int :=
  let dst := GetBigIntPtr amx p1
  let src := GetBigIntPtr amx p2
  let a := BigInt_Read amx dst
  let b := BigInt_Read amx src
  (BigInt_Write amx dst (add64 a b), 1)

/-- `BigInt_Sub(BigInt:dst[], const BigInt:src[])`. -/
def Sub (amx : Mem) (p1 p2 : Nat) : Mem × Int :=
  let dst := GetBigIntPtr amx p1
  let src := GetBigIntPtr amx p2
  let a := BigInt_Read amx dst
  let b := BigInt_Read amx src
  (BigInt_Write amx dst (sub64 a b), 1)

/-- `BigInt_Mul(BigInt:dst[], const BigInt:src[])`. -/
def Mul (amx : Mem) (p1 p2 : Nat) : Mem × Int :=
  let dst := GetBigIntPtr amx p1
  let src := GetBigIntPtr amx p2
  let a := BigInt_Read amx dst
  let b := BigInt_Read amx src
  (BigInt_Write amx dst (mul64 a b), 1)

/-- `BigInt_Div(BigInt:dst[], const BigInt:src[])`; `none` when `a / b` has no
result. -/
def Div (amx : Mem) (p1 p2 : Nat) : Option (Mem × Int) :=
  let dst := GetBigIntPtr amx p1
  let src := GetBigIntPtr amx p2
  let a := BigInt_Read amx dst
  let b := BigInt_Read amx src
  if b = 0 then some (amx, 0)
  else
    match div64 a b with
    | some q => some (BigInt_Write amx dst q, 1)
    | none => none

/-- `BigInt_Mod(BigInt:dst[], const BigInt:src[])`; `none` when `a % b` has no
result. -/
def Mod (amx : Mem) (p1 p2 : Nat) : Option (Mem × Int) :=
  let dst := GetBigIntPtr amx p1
  let src := GetBigIntPtr amx p2
  let a := BigInt_Read amx dst
  let b := BigInt_Read amx src
  if b = 0 then some (amx, 0)
  else
    match mod64 a b with
    | some r => some (BigInt_Write amx dst r, 1)
    | none => none

/-- `BigInt_AddInt(BigInt:dst[], v)`. -/
def AddInt (amx : Mem) (p1 : Nat) (p2 : Int) : Mem × Int :=
  let dst := GetBigIntPtr amx p1
  let a := BigInt_Read amx dst
  (BigInt_Write amx dst (add64 a (toInt64 p2)), 1)

/-- `BigInt_SubInt(BigInt:dst[], v)`. -/
def SubInt (amx : Mem) (p1 : Nat) (p2 : Int) : Mem × Int :=
  let dst := GetBigIntPtr amx p1
  let a := BigInt_Read amx dst
  (BigInt_Write amx dst (sub64 a (toInt64 p2)), 1)

/-- `BigInt_MulInt(BigInt:dst[], v)`. -/
def MulInt (amx : Mem) (p1 : Nat) (p2 : Int) : Mem × Int :=
  let dst := GetBigIntPtr amx p1
  let a := BigInt_Read amx dst
  (BigInt_Write amx dst (mul64 a (toInt64 p2)), 1)

/-- `BigInt_DivInt(BigInt:dst[], v)`; `none` when `a / v` has no result. -/
def DivInt (amx : Mem) (p1 : Nat) (p2 : Int) : Option (Mem × Int) :=
  if p2 = 0 then some (amx, 0)
  else
    let dst := GetBigIntPtr amx p1
    let a := BigInt_Read amx dst
    match div64 a (toInt64 p2) with
    | some q => some (BigInt_Write amx dst q, 1)
    | none => none

/-- `BigInt_ModInt(BigInt:dst[], v)`; `none` when `a % v` has no result. -/
def ModInt (amx : Mem) (p1 : Nat) (p2 : Int) : Option (Mem × Int) :=
  if p2 = 0 then some (amx, 0)
  else
    let dst := GetBigIntPtr amx p1
    let a := BigInt_Read amx dst
    match mod64 a (toInt64 p2) with
    | some r => some (BigInt_Write amx dst r, 1)
    | none => none

/-- `BigInt_Cmp(const BigInt:a[], const BigInt:b[])`. -/
def Cmp (amx : Mem) (p1 p2 : Nat) : Mem × Int :=
  let a := GetBigIntPtr amx p1
  let b := GetBigIntPtr amx p2
  let va := BigInt_Read amx a
  let vb := BigInt_Read amx b
  if va < vb then (amx, -1)
  else if va > vb then (amx, 1)
  else (amx, 0)

/-- `BigInt_CmpInt(const BigInt:a[], v)`. -/
def CmpInt (amx : Mem) (p1 : Nat) (p2 : Int) : Mem × Int :=
  let a := GetBigIntPtr amx p1
  let va := BigInt_Read amx a
  let vb := toInt64 p2
  if va < vb then (amx, -1)
  else if va > vb then (amx, 1)
  else (amx, 0)

end BigIntNatives

/-! ### The open.mp wrappers of `main.cpp`

The `SCRIPT_API` wrappers follow the bodies of the plugin natives, with `true`
and `false` for 1 and 0 and the parameter passing of the host. The two that
compute something else than the native are embedded here. -/

/-- `SCRIPT_API(BigInt_FromParts, bool(cell bigIntAddr, int lo, int hi))`. The
locals `_lo` and `_hi` are computed and not used: the value is built from the
parameters `hi` and `lo`, both `int`, so `lo` is widened with its sign. -/
def BigInt_FromParts (amx : Mem) (bigIntAddr : Nat) (lo hi : Int) : Mem × Int :=
  let ptr := GetBigIntPtr amx bigIntAddr
  let _lo := toUInt32 lo
  let _hi := toInt32 hi
  let v := or64 (shl64 (toInt64 hi) 32) (toInt64 lo)
  (BigInt_Write amx ptr v, 1)

/-- `SCRIPT_API(BigInt_FromString, bool(cell bigIntAddr, const std::string& str))`.
The body calls `std::stoll` outside any `try`: when it throws, the exception
leaves the body and there is no return value, which is `none`. -/
def BigInt_FromString (amx : Mem) (bigIntAddr : Nat) (str : List Char) :
    Option (Mem × Int) :=
  let val := bigIntAddr
  match stoll str with
  | some parsed => some (BigInt_Write amx val (toInt64 parsed), 1)
  | none => none


/-- What a call shows of a dst pair: the value returned and the two cells of the
pair afterwards. -/
def resultAt (dst : Nat) (r : Mem × Int) : Int × Int × Int :=
  (r.2, r.1 dst, r.1 (dst + 1))

/-- A data segment for the examples: cell `q` holds `cs[q]`, and `0` past the
end of the list. -/
def memOf (cs : List Int) : Mem := fun q => cs.getD q 0

/-! ## Arithmetic of the codec -/

theorem toInt32_of_isInt32 {x : Int} (h : IsInt32 x) : toInt32 x = x := by
  unfold IsInt32 INT32_MIN INT32_MAX at h
  unfold toInt32
  omega

theorem toInt64_of_isInt64 {x : Int} (h : IsInt64 x) : toInt64 x = x := by
  unfold IsInt64 INT64_MIN INT64_MAX at h
  unfold toInt64
  omega

theorem isInt32_toInt32 (x : Int) : IsInt32 (toInt32 x) := by
  unfold IsInt32 INT32_MIN INT32_MAX toInt32
  omega

theorem isInt64_toInt64 (x : Int) : IsInt64 (toInt64 x) := by
  unfold IsInt64 INT64_MIN INT64_MAX toInt64
  omega

theorem lor_natCast (x y : Nat) : Int.lor (x : Int) (y : Int) = ((x ||| y : Nat) : Int) :=
  rfl

theorem land_natCast (x y : Nat) : Int.land (x : Int) (y : Int) = ((x &&& y : Nat) : Int) :=
  rfl

/-- The `|` that joins a shifted high half and a low half is an addition. -/
theorem or64_join (h l : Int) (hh : IsInt32 h) (hl : 0 ≤ l ∧ l < 4294967296) :
    or64 (shl64 h 32) l = h * 4294967296 + l := by
  unfold IsInt32 INT32_MIN INT32_MAX at hh
  unfold or64 shl64
  have e1 : toInt64 (h * 2 ^ 32) = h * 4294967296 := by
    unfold toInt64; norm_num; omega
  rw [e1]
  have e2 : toUInt64 (h * 4294967296) = ((2 ^ 32 * (h % 4294967296).toNat : Nat) : Int) := by
    unfold toUInt64; omega
  have e3 : toUInt64 l = ((l.toNat : Nat) : Int) := by
    unfold toUInt64; omega
  have e4 : l.toNat < 2 ^ 32 := by omega
  rw [e2, e3, lor_natCast, ← Nat.mul_add_lt_is_or e4]
  unfold toInt64
  push_cast
  omega

/-- Masking an `int64_t` with `0xFFFFFFFF` keeps its residue modulo `2^32`. -/
theorem and64_mask (v : Int) : and64 v 4294967295 = v % 4294967296 := by
  unfold and64
  have e1 : toUInt64 4294967295 = ((2 ^ 32 - 1 : Nat) : Int) := by
    unfold toUInt64; omega
  have e2 : toUInt64 v = (((v % 18446744073709551616).toNat : Nat) : Int) := by
    unfold toUInt64; omega
  rw [e1, e2, land_natCast, Nat.and_pow_two_sub_one_eq_mod]
  unfold toInt64
  push_cast
  omega

theorem BigInt_Read_eq (m : Mem) (p : Nat) :
    BigInt_Read m p = toInt32 (m (p + 1)) * 4294967296 + toUInt32 (m p) := by
  unfold BigInt_Read
  exact or64_join _ _ (isInt32_toInt32 _) (by unfold toUInt32; omega)

theorem isInt64_BigInt_Read (m : Mem) (p : Nat) : IsInt64 (BigInt_Read m p) := by
  rw [BigInt_Read_eq]
  unfold IsInt64 INT64_MIN INT64_MAX toInt32 toUInt32
  omega

theorem BigInt_Write_lo (m : Mem) (p : Nat) (v : Int) :
    BigInt_Write m p v p = toInt32 (v % 4294967296) := by
  unfold BigInt_Write
  simp only [storeCell, and64_mask]
  have hne : ¬ (p = p + 1) := by omega
  simp only [hne, if_false, if_true]
  unfold toInt32 toUInt32
  omega

theorem BigInt_Write_hi (m : Mem) (p : Nat) (v : Int) :
    BigInt_Write m p v (p + 1) = toInt32 (v / 4294967296) := by
  have e : sar64 v 32 = v / 4294967296 := by
    unfold sar64
    norm_num
  unfold BigInt_Write
  simp only [storeCell, if_true, e]
  unfold toInt32
  omega

theorem BigInt_Write_other (m : Mem) (p : Nat) (v : Int) (q : Nat)
    (h0 : q ≠ p) (h1 : q ≠ p + 1) : BigInt_Write m p v q = m q := by
  unfold BigInt_Write
  simp only [storeCell, h0, h1, if_false]

/-- Reading back what was written gives the value written, kept to 64 bits. -/
theorem BigInt_Read_Write (m : Mem) (p : Nat) (v : Int) :
    BigInt_Read (BigInt_Write m p v) p = toInt64 v := by
  rw [BigInt_Read_eq, BigInt_Write_lo, BigInt_Write_hi]
  unfold toInt32 toUInt32 toInt64
  omega

theorem tdiv_natCast (m n : Nat) : Int.tdiv (m : Int) (n : Int) = ((m / n : Nat) : Int) := by
  rw [Int.tdiv_eq_ediv (Int.ofNat_nonneg m) (Int.ofNat_nonneg n)]
  norm_cast

/-- The truncated quotient: magnitude `|a| / |b|` rounded down, sign of `a * b`. -/
theorem tdiv_sign_natAbs (a b : Int) :
    Int.tdiv a b = Int.sign a * Int.sign b * ((a.natAbs / b.natAbs : Nat) : Int) := by
  obtain ⟨m, rfl | rfl⟩ := Int.eq_nat_or_neg a <;>
  obtain ⟨n, rfl | rfl⟩ := Int.eq_nat_or_neg b <;>
  rcases Nat.eq_zero_or_pos m with hm | hm <;>
  rcases Nat.eq_zero_or_pos n with hn | hn <;>
  simp [hm, hn, Int.tdiv_neg, Int.neg_tdiv, tdiv_natCast, Int.sign_eq_one_of_pos,
    Int.sign_eq_neg_one_of_neg]

/-- The quotient of two `int64_t` is an `int64_t`, but for `INT64_MIN / -1`. -/
theorem isInt64_tdiv (a b : Int) (ha : IsInt64 a)
    (h : ¬(a = INT64_MIN ∧ b = -1)) : IsInt64 (Int.tdiv a b) := by
  unfold IsInt64 INT64_MIN INT64_MAX at *
  have hq : (Int.tdiv a b).natAbs = a.natAbs / b.natAbs := Int.natAbs_tdiv a b
  rcases Nat.lt_or_ge b.natAbs 2 with hb | hb
  · rcases Nat.eq_zero_or_pos b.natAbs with z | z
    · rw [z, Nat.div_zero] at hq
      omega
    · have h1 : b.natAbs = 1 := by omega
      rw [h1, Nat.div_one] at hq
      rcases Int.natAbs_eq b with e | e
      · rw [e, h1]
        simp only [Nat.cast_one, Int.tdiv_one]
        omega
      · rw [e, h1]
        simp only [Nat.cast_one, Int.tdiv_neg, Int.tdiv_one]
        omega
  · have h2 : a.natAbs / b.natAbs ≤ a.natAbs / 2 := Nat.div_le_div_left hb (by omega)
    omega

/-- The value `FromParts` stores, for a 32-bit `hi`. -/
theorem FromParts_value (m : Mem) (dst : Nat) (lo hi : Int) (hhi : IsInt32 hi) :
    (BigIntNatives.FromParts m dst lo hi).1 =
      BigInt_Write m dst (hi * 4294967296 + lo % 4294967296) := by
  have hF : (BigIntNatives.FromParts m dst lo hi).1 =
      BigInt_Write m dst (or64 (shl64 (toInt32 hi) 32) (toUInt32 lo)) := rfl
  rw [hF, or64_join _ _ (isInt32_toInt32 hi) (by unfold toUInt32; omega),
    toInt32_of_isInt32 hhi]
  rfl

theorem tmod_natCast (m n : Nat) : Int.tmod (m : Int) (n : Int) = ((m % n : Nat) : Int) :=
  (Int.ofNat_tmod m n).symm

theorem neg_tmod_eq (a b : Int) : Int.tmod (-a) b = -(Int.tmod a b) := by
  rw [Int.tmod_def, Int.tmod_def, Int.neg_tdiv]
  ring

/-- The remainder of the truncated division: magnitude `|a| mod |b|`, sign of `a`. -/
theorem tmod_sign_natAbs (a b : Int) :
    Int.tmod a b = Int.sign a * ((a.natAbs % b.natAbs : Nat) : Int) := by
  obtain ⟨m, rfl | rfl⟩ := Int.eq_nat_or_neg a <;>
  obtain ⟨n, rfl | rfl⟩ := Int.eq_nat_or_neg b <;>
  rcases Nat.eq_zero_or_pos m with hm | hm <;>
  simp [hm, Int.tmod_neg, neg_tmod_eq, tmod_natCast, Int.sign_eq_one_of_pos,
    Int.sign_eq_neg_one_of_neg]

/-- What the remainder of a truncated division by a nonzero `b` satisfies. -/
theorem tmod_facts (a b : Int) (hb : b ≠ 0) :
    a = Int.tdiv a b * b + Int.tmod a b ∧
    (Int.tmod a b).natAbs < b.natAbs ∧
    (Int.tmod a b = 0 ∨ Int.sign (Int.tmod a b) = Int.sign a) ∧
    (Int.tmod a b).natAbs ≤ a.natAbs := by
  have hlt : a.natAbs % b.natAbs < b.natAbs :=
    Nat.mod_lt _ (Int.natAbs_pos.mpr hb)
  have hle : a.natAbs % b.natAbs ≤ a.natAbs := Nat.mod_le _ _
  have hr := tmod_sign_natAbs a b
  refine ⟨(Int.tdiv_add_tmod' a b).symm, ?_, ?_, ?_⟩
  · rcases lt_trichotomy a 0 with h | h | h
    · rw [Int.sign_eq_neg_one_of_neg h] at hr
      omega
    · subst h
      rw [Int.zero_tmod]
      simpa using Int.natAbs_pos.mpr hb
    · rw [Int.sign_eq_one_of_pos h] at hr
      omega
  · rcases Nat.eq_zero_or_pos (a.natAbs % b.natAbs) with z | z
    · left
      rw [hr, z]
      simp
    · right
      rcases lt_trichotomy a 0 with h | h | h
      · rw [Int.sign_eq_neg_one_of_neg h] at hr ⊢
        exact Int.sign_eq_neg_one_of_neg (by omega)
      · subst h
        simp at z
      · rw [Int.sign_eq_one_of_pos h] at hr ⊢
        exact Int.sign_eq_one_of_pos (by omega)
  · rcases lt_trichotomy a 0 with h | h | h
    · rw [Int.sign_eq_neg_one_of_neg h] at hr
      omega
    · subst h
      rw [Int.zero_tmod]
    · rw [Int.sign_eq_one_of_pos h] at hr
      omega

/-- The remainder of an `int64_t` by a nonzero divisor is an `int64_t`. -/
theorem isInt64_tmod (a b : Int) (ha : IsInt64 a) (hb : b ≠ 0) : IsInt64 (Int.tmod a b) := by
  obtain ⟨-, -, hs, hle⟩ := tmod_facts a b hb
  unfold IsInt64 INT64_MIN INT64_MAX at *
  rcases hs with h0 | hsg
  · omega
  · rcases lt_trichotomy a 0 with h | h | h
    · rw [Int.sign_eq_neg_one_of_neg h] at hsg
      have := Int.sign_eq_neg_one_iff_neg.mp hsg
      omega
    · subst h
      rw [Int.zero_tmod]
      omega
    · rw [Int.sign_eq_one_of_pos h] at hsg
      have := Int.sign_eq_one_iff_pos.mp hsg
      omega

/-! ## The claims -/

/-- C1. Codec round trip: for every 64-bit signed `v`, `BigInt_Write` followed by
`BigInt_Read` on the same pair returns exactly `v`; the low cell holds the low 32
bits of `v` and the high cell holds `v` shifted right arithmetically by 32. -/
theorem BigInt_Write_Read_roundtrip (m : Mem) (p : Nat) (v : Int) (hv : IsInt64 v) :
    BigInt_Read (BigInt_Write m p v) p = v ∧
    toUInt32 (BigInt_Write m p v p) = v % 4294967296 ∧
    BigInt_Write m p v (p + 1) = v / 4294967296 := by
  refine ⟨?_, ?_, ?_⟩
  · rw [BigInt_Read_Write, toInt64_of_isInt64 hv]
  · rw [BigInt_Write_lo]
    unfold toUInt32 toInt32
    omega
  · rw [BigInt_Write_hi]
    unfold IsInt64 INT64_MIN INT64_MAX at hv
    unfold toInt32
    omega

theorem BigInt_Write_Read_roundtrip_witness :
    IsInt64 (-5000000000) ∧
    BigInt_Read (BigInt_Write (memOf []) 0 (-5000000000)) 0 = -5000000000 ∧
    toUInt32 (BigInt_Write (memOf []) 0 (-5000000000) 0) = 3589934592 ∧
    BigInt_Write (memOf []) 0 (-5000000000) 1 = -2 := by
  have h := BigInt_Write_Read_roundtrip (memOf []) 0 (-5000000000) (by decide)
  exact ⟨by decide, h.1, by decide, by decide⟩

/-- C2. Div contract: with `a` the value of the dst pair and `b` the value of the
src pair, if `b = 0` then `Div` returns 0 and leaves the data segment, hence both
cells of dst, as it was; if `b ≠ 0` and `(a, b) ≠ (INT64_MIN, -1)` then `Div`
returns 1 and dst afterwards decodes to the quotient of `a` by `b` truncated
toward zero (magnitude `|a| / |b|` rounded down, sign of `a * b`); and `Div`
never returns 0 when `b ≠ 0`. -/
theorem Div_contract (m : Mem) (dst src : Nat) :
    (BigInt_Read m src = 0 → BigIntNatives.Div m dst src = some (m, 0)) ∧
    (BigInt_Read m src ≠ 0 →
      ¬(BigInt_Read m dst = INT64_MIN ∧ BigInt_Read m src = -1) →
      ∃ m1, BigIntNatives.Div m dst src = some (m1, 1) ∧
        BigInt_Read m1 dst = Int.tdiv (BigInt_Read m dst) (BigInt_Read m src) ∧
        BigInt_Read m1 dst =
          Int.sign (BigInt_Read m dst) * Int.sign (BigInt_Read m src) *
            (((BigInt_Read m dst).natAbs / (BigInt_Read m src).natAbs : Nat) : Int)) ∧
    (BigInt_Read m src ≠ 0 → ∀ m1, BigIntNatives.Div m dst src ≠ some (m1, 0)) := by
  refine ⟨?_, ?_, ?_⟩
  · intro hb
    simp [BigIntNatives.Div, GetBigIntPtr, hb]
  · intro hb hov
    have hd : div64 (BigInt_Read m dst) (BigInt_Read m src) =
        some (Int.tdiv (BigInt_Read m dst) (BigInt_Read m src)) := by
      unfold div64
      rw [if_neg]
      rintro (h | h)
      · exact hb h
      · exact hov h
    have hr : BigInt_Read (BigInt_Write m dst
        (Int.tdiv (BigInt_Read m dst) (BigInt_Read m src))) dst =
        Int.tdiv (BigInt_Read m dst) (BigInt_Read m src) := by
      rw [BigInt_Read_Write]
      exact toInt64_of_isInt64 (isInt64_tdiv _ _ (isInt64_BigInt_Read m dst) hov)
    refine ⟨BigInt_Write m dst (Int.tdiv (BigInt_Read m dst) (BigInt_Read m src)), ?_, hr, ?_⟩
    · simp [BigIntNatives.Div, GetBigIntPtr, hb, hd]
    · rw [hr]
      exact tdiv_sign_natAbs _ _
  · intro hb m1
    unfold BigIntNatives.Div GetBigIntPtr
    simp only [hb, if_false]
    cases div64 (BigInt_Read m dst) (BigInt_Read m src) <;> simp

theorem Div_contract_witness :
    (BigInt_Read (memOf [10, 0, 0, 0]) 0 = 10 ∧ BigInt_Read (memOf [10, 0, 0, 0]) 2 = 0 ∧
      BigIntNatives.Div (memOf [10, 0, 0, 0]) 0 2 = some (memOf [10, 0, 0, 0], 0)) ∧
    (BigInt_Read (memOf [-7, -1, 2, 0]) 0 = -7 ∧ BigInt_Read (memOf [-7, -1, 2, 0]) 2 = 2 ∧
      ∃ m1, BigIntNatives.Div (memOf [-7, -1, 2, 0]) 0 2 = some (m1, 1) ∧
        BigInt_Read m1 0 = -3) ∧
    (∀ m1, BigIntNatives.Div (memOf [-7, -1, 2, 0]) 0 2 ≠ some (m1, 0)) := by
  refine ⟨⟨by decide, by decide, (Div_contract (memOf [10, 0, 0, 0]) 0 2).1 (by decide)⟩,
    ⟨by decide, by decide, ?_⟩,
    (Div_contract (memOf [-7, -1, 2, 0]) 0 2).2.2 (by decide)⟩
  obtain ⟨m1, h1, h2, _⟩ :=
    (Div_contract (memOf [-7, -1, 2, 0]) 0 2).2.1 (by decide) (by decide)
  exact ⟨m1, h1, by rw [h2]; decide⟩

/-- C3, the code at the failing input: with dst holding `INT64_MIN` (cells
`0, -2147483648`) and the divisor `-1` (cells `-1, -1`, or the literal `-1`),
the divisor is not zero, so each of `Div`, `Mod`, `DivInt` and `ModInt` goes on
to evaluate `a / b` or `a % b`, which has no result for these operands: no
return value and no value of dst is defined. -/
theorem division_overflow_has_no_result :
    BigInt_Read (memOf [0, -2147483648, -1, -1]) 0 = INT64_MIN ∧
    BigInt_Read (memOf [0, -2147483648, -1, -1]) 2 = -1 ∧
    BigIntNatives.Div (memOf [0, -2147483648, -1, -1]) 0 2 = none ∧
    BigIntNatives.Mod (memOf [0, -2147483648, -1, -1]) 0 2 = none ∧
    BigIntNatives.DivInt (memOf [0, -2147483648, -1, -1]) 0 (-1) = none ∧
    BigIntNatives.ModInt (memOf [0, -2147483648, -1, -1]) 0 (-1) = none :=
  ⟨by decide, by decide, rfl, rfl, rfl, rfl⟩

/-- C4 as stated fails: called with the same pair as dst and as src (the pair
decodes to 1), `Add` returns 1 and the pair, which is also src, decodes to 2
afterwards: src is not unchanged. -/
theorem Add_same_pair_changes_src :
    BigInt_Read (memOf [1, 0]) 0 = 1 ∧
    (BigIntNatives.Add (memOf [1, 0]) 0 0).2 = 1 ∧
    BigInt_Read (BigIntNatives.Add (memOf [1, 0]) 0 0).1 0 = 2 ∧
    (BigIntNatives.Add (memOf [1, 0]) 0 0).1 0 ≠ memOf [1, 0] 0 := by
  decide

/-- C4, amended. For every dst pair decoding to `a` and every src pair decoding
to `b`, `Add`, `Sub` and `Mul` return 1 and leave dst decoding to `a + b`,
`a - b` and `a * b` reduced modulo `2^64` into the signed 64-bit range (`toInt64`,
which yields an `int64_t` that differs from its argument by a multiple of `2^64`);
every cell outside the dst pair keeps its value, so src is unchanged whenever it
shares no cell with dst. -/
theorem Add_Sub_Mul_wrap (m : Mem) (dst src : Nat) :
    ((BigIntNatives.Add m dst src).2 = 1 ∧
      BigInt_Read (BigIntNatives.Add m dst src).1 dst =
        toInt64 (BigInt_Read m dst + BigInt_Read m src)) ∧
    ((BigIntNatives.Sub m dst src).2 = 1 ∧
      BigInt_Read (BigIntNatives.Sub m dst src).1 dst =
        toInt64 (BigInt_Read m dst - BigInt_Read m src)) ∧
    ((BigIntNatives.Mul m dst src).2 = 1 ∧
      BigInt_Read (BigIntNatives.Mul m dst src).1 dst =
        toInt64 (BigInt_Read m dst * BigInt_Read m src)) ∧
    (∀ x : Int, IsInt64 (toInt64 x) ∧ (toInt64 x - x) % 18446744073709551616 = 0) ∧
    (∀ q, q ≠ dst → q ≠ dst + 1 →
      (BigIntNatives.Add m dst src).1 q = m q ∧
      (BigIntNatives.Sub m dst src).1 q = m q ∧
      (BigIntNatives.Mul m dst src).1 q = m q) ∧
    (src + 1 < dst ∨ dst + 1 < src →
      BigInt_Read (BigIntNatives.Add m dst src).1 src = BigInt_Read m src ∧
      BigInt_Read (BigIntNatives.Sub m dst src).1 src = BigInt_Read m src ∧
      BigInt_Read (BigIntNatives.Mul m dst src).1 src = BigInt_Read m src) := by
  have hA : (BigIntNatives.Add m dst src).1 =
      BigInt_Write m dst (add64 (BigInt_Read m dst) (BigInt_Read m src)) := rfl
  have hS : (BigIntNatives.Sub m dst src).1 =
      BigInt_Write m dst (sub64 (BigInt_Read m dst) (BigInt_Read m src)) := rfl
  have hM : (BigIntNatives.Mul m dst src).1 =
      BigInt_Write m dst (mul64 (BigInt_Read m dst) (BigInt_Read m src)) := rfl
  have idem : ∀ x : Int, toInt64 (toInt64 x) = toInt64 x :=
    fun x => toInt64_of_isInt64 (isInt64_toInt64 x)
  refine ⟨⟨rfl, ?_⟩, ⟨rfl, ?_⟩, ⟨rfl, ?_⟩, ?_, ?_, ?_⟩
  · rw [hA, BigInt_Read_Write, add64, idem]
  · rw [hS, BigInt_Read_Write, sub64, idem]
  · rw [hM, BigInt_Read_Write, mul64, idem]
  · intro x
    refine ⟨isInt64_toInt64 x, ?_⟩
    unfold toInt64
    omega
  · intro q h0 h1
    rw [hA, hS, hM]
    exact ⟨BigInt_Write_other _ _ _ _ h0 h1, BigInt_Write_other _ _ _ _ h0 h1,
      BigInt_Write_other _ _ _ _ h0 h1⟩
  · intro hd
    have key : ∀ v, BigInt_Read (BigInt_Write m dst v) src = BigInt_Read m src := by
      intro v
      rw [BigInt_Read_eq, BigInt_Read_eq,
        BigInt_Write_other m dst v src (by omega) (by omega),
        BigInt_Write_other m dst v (src + 1) (by omega) (by omega)]
    rw [hA, hS, hM]
    exact ⟨key _, key _, key _⟩

theorem Add_Sub_Mul_wrap_witness :
    BigInt_Read (memOf [-1, 2147483647, 1, 0]) 0 = INT64_MAX ∧
    BigInt_Read (memOf [-1, 2147483647, 1, 0]) 2 = 1 ∧
    BigInt_Read (BigIntNatives.Add (memOf [-1, 2147483647, 1, 0]) 0 2).1 0 = INT64_MIN ∧
    BigInt_Read (BigIntNatives.Add (memOf [-1, 2147483647, 1, 0]) 0 2).1 2 = 1 ∧
    (BigIntNatives.Add (memOf [-1, 2147483647, 1, 0]) 0 2).1 3 = 0 := by
  have h := Add_Sub_Mul_wrap (memOf [-1, 2147483647, 1, 0]) 0 2
  refine ⟨by decide, by decide, ?_, ?_, ?_⟩
  · rw [h.1.2]
    decide
  · rw [(h.2.2.2.2.2 (by decide)).1]
    decide
  · rw [(h.2.2.2.2.1 3 (by decide) (by decide)).1]
    decide

/-- C5. ToInt saturation: with `v` the value of the pair, `ToInt` returns
`INT32_MAX` if `v > INT32_MAX`, `INT32_MIN` if `v < INT32_MIN` and `v` itself
otherwise, and leaves the data segment, hence the pair, unchanged. A pair holding
`2^31` gives `INT32_MAX`, one holding `-2^31 - 1` gives `INT32_MIN`, one holding
0 gives 0. -/
theorem ToInt_saturates (m : Mem) (p : Nat) :
    (BigIntNatives.ToInt m p).1 = m ∧
    (BigInt_Read m p > INT32_MAX → (BigIntNatives.ToInt m p).2 = INT32_MAX) ∧
    (BigInt_Read m p < INT32_MIN → (BigIntNatives.ToInt m p).2 = INT32_MIN) ∧
    (INT32_MIN ≤ BigInt_Read m p → BigInt_Read m p ≤ INT32_MAX →
      (BigIntNatives.ToInt m p).2 = BigInt_Read m p) ∧
    (BigIntNatives.ToInt (BigInt_Write m p 2147483648) p).2 = INT32_MAX ∧
    (BigIntNatives.ToInt (BigInt_Write m p (-2147483649)) p).2 = INT32_MIN ∧
    (BigIntNatives.ToInt (BigInt_Write m p 0) p).2 = 0 := by
  have hT : ∀ (m : Mem) (p : Nat), (BigIntNatives.ToInt m p).2 =
      toInt32 (if (if BigInt_Read m p > INT32_MAX then INT32_MAX else BigInt_Read m p)
          < INT32_MIN then INT32_MIN
        else (if BigInt_Read m p > INT32_MAX then INT32_MAX else BigInt_Read m p)) :=
    fun _ _ => rfl
  have hW : ∀ v : Int, IsInt64 v → BigInt_Read (BigInt_Write m p v) p = v :=
    fun v hv => by rw [BigInt_Read_Write, toInt64_of_isInt64 hv]
  refine ⟨rfl, ?_, ?_, ?_, ?_, ?_, ?_⟩
  · intro h
    rw [hT]
    unfold INT32_MAX INT32_MIN toInt32 at *
    split_ifs <;> omega
  · intro h
    rw [hT]
    unfold INT32_MAX INT32_MIN toInt32 at *
    split_ifs <;> omega
  · intro h1 h2
    rw [hT]
    unfold INT32_MAX INT32_MIN toInt32 at *
    split_ifs <;> omega
  · rw [hT, hW _ (by decide)]
    decide
  · rw [hT, hW _ (by decide)]
    decide
  · rw [hT, hW _ (by decide)]
    decide

theorem ToInt_saturates_witness :
    BigInt_Read (memOf [-2147483648, 0]) 0 = 2147483648 ∧
    (BigIntNatives.ToInt (memOf [-2147483648, 0]) 0).2 = INT32_MAX ∧
    BigInt_Read (memOf [2147483647, -1]) 0 = -2147483649 ∧
    (BigIntNatives.ToInt (memOf [2147483647, -1]) 0).2 = INT32_MIN ∧
    BigInt_Read (memOf [-5, -1]) 0 = -5 ∧
    (BigIntNatives.ToInt (memOf [-5, -1]) 0).2 = -5 :=
  ⟨by decide, (ToInt_saturates (memOf [-2147483648, 0]) 0).2.1 (by decide),
   by decide, (ToInt_saturates (memOf [2147483647, -1]) 0).2.2.1 (by decide),
   by decide, by
    rw [(ToInt_saturates (memOf [-5, -1]) 0).2.2.2.1 (by decide) (by decide)]
    decide⟩

/-- C6. Cmp is a total order consistent with signed 64-bit comparison: with `va`,
`vb`, `vc` the values of the pairs `a`, `b`, `c`, `Cmp(a, b)` is -1 exactly when
`va < vb`, 1 exactly when `va > vb` and 0 exactly when `va = vb`;
`Cmp(a, b) = -Cmp(b, a)`; and `Cmp(a, b) = -1` with `Cmp(b, c) = -1` gives
`Cmp(a, c) = -1`. `Cmp` leaves the data segment unchanged. -/
theorem Cmp_total_order (m : Mem) (a b c : Nat) :
    ((BigIntNatives.Cmp m a b).2 = -1 ↔ BigInt_Read m a < BigInt_Read m b) ∧
    ((BigIntNatives.Cmp m a b).2 = 1 ↔ BigInt_Read m a > BigInt_Read m b) ∧
    ((BigIntNatives.Cmp m a b).2 = 0 ↔ BigInt_Read m a = BigInt_Read m b) ∧
    (BigIntNatives.Cmp m a b).2 = -(BigIntNatives.Cmp m b a).2 ∧
    ((BigIntNatives.Cmp m a b).2 = -1 → (BigIntNatives.Cmp m b c).2 = -1 →
      (BigIntNatives.Cmp m a c).2 = -1) ∧
    (BigIntNatives.Cmp m a b).1 = m := by
  have hC : ∀ x y : Nat, BigIntNatives.Cmp m x y =
      if BigInt_Read m x < BigInt_Read m y then (m, -1)
      else if BigInt_Read m x > BigInt_Read m y then (m, 1) else (m, 0) :=
    fun _ _ => rfl
  have hlt : ∀ x y : Nat,
      ((BigIntNatives.Cmp m x y).2 = -1 ↔ BigInt_Read m x < BigInt_Read m y) := by
    intro x y
    rw [hC]
    split_ifs <;> simp <;> omega
  refine ⟨hlt a b, ?_, ?_, ?_, ?_, ?_⟩
  · rw [hC]
    split_ifs <;> simp <;> omega
  · rw [hC]
    split_ifs <;> simp <;> omega
  · rw [hC, hC]
    split_ifs <;> first | rfl | omega
  · intro h1 h2
    rw [hlt] at h1 h2 ⊢
    omega
  · rw [hC]
    split_ifs <;> rfl

theorem Cmp_total_order_witness :
    BigInt_Read (memOf [-7, -1, 2, 0, 0, 1]) 0 = -7 ∧
    BigInt_Read (memOf [-7, -1, 2, 0, 0, 1]) 2 = 2 ∧
    BigInt_Read (memOf [-7, -1, 2, 0, 0, 1]) 4 = 4294967296 ∧
    (BigIntNatives.Cmp (memOf [-7, -1, 2, 0, 0, 1]) 0 2).2 = -1 ∧
    (BigIntNatives.Cmp (memOf [-7, -1, 2, 0, 0, 1]) 2 4).2 = -1 ∧
    (BigIntNatives.Cmp (memOf [-7, -1, 2, 0, 0, 1]) 0 4).2 = -1 :=
  ⟨by decide, by decide, by decide, by decide, by decide,
   (Cmp_total_order (memOf [-7, -1, 2, 0, 0, 1]) 0 2 4).2.2.2.2.1 (by decide) (by decide)⟩

/-- C7. FromParts (plugin native): for every 32-bit `lo` and `hi`, `FromParts`
returns 1 and leaves dst decoding to `(int64(hi) << 32) | uint32(lo)`, that is
`hi * 2^32 + (lo mod 2^32)`: `lo` is the unsigned low half and the high cell is
`hi` itself. -/
theorem FromParts_decodes (m : Mem) (dst : Nat) (lo hi : Int)
    (hlo : IsInt32 lo) (hhi : IsInt32 hi) :
    (BigIntNatives.FromParts m dst lo hi).2 = 1 ∧
    BigInt_Read (BigIntNatives.FromParts m dst lo hi).1 dst =
      or64 (shl64 hi 32) (toUInt32 lo) ∧
    BigInt_Read (BigIntNatives.FromParts m dst lo hi).1 dst =
      hi * 4294967296 + lo % 4294967296 ∧
    (BigIntNatives.FromParts m dst lo hi).1 (dst + 1) = hi ∧
    (BigIntNatives.FromParts m dst lo hi).1 dst = lo := by
  have hF := FromParts_value m dst lo hi hhi
  have hj2 : or64 (shl64 hi 32) (toUInt32 lo) = hi * 4294967296 + lo % 4294967296 := by
    rw [or64_join _ _ hhi (by unfold toUInt32; omega)]
    rfl
  unfold IsInt32 INT32_MIN INT32_MAX at hlo hhi
  refine ⟨rfl, ?_, ?_, ?_, ?_⟩
  · rw [hF, BigInt_Read_Write, hj2]
    unfold toInt64
    omega
  · rw [hF, BigInt_Read_Write]
    unfold toInt64
    omega
  · rw [hF, BigInt_Write_hi]
    unfold toInt32
    omega
  · rw [hF, BigInt_Write_lo]
    unfold toInt32
    omega

theorem FromParts_decodes_witness :
    IsInt32 (-1) ∧ IsInt32 0 ∧
    BigInt_Read (BigIntNatives.FromParts (memOf []) 0 (-1) 0).1 0 = 4294967295 := by
  have h := FromParts_decodes (memOf []) 0 (-1) 0 (by decide) (by decide)
  refine ⟨by decide, by decide, ?_⟩
  rw [h.2.2.1]
  decide

/-- C8. Parts round trip: for every 64-bit `v`, split into the cell `lo` that
holds its low 32 bits and the cell `hi` that holds its high 32 bits,
`FromParts(dst, lo, hi)` followed by `GetParts(dst, &lo2, &hi2)`, with `lo2` and
`hi2` two different cells, yields `lo2 = lo` and `hi2 = hi`, and
`(int64(hi2) << 32) | uint32(lo2) = v`; both calls return 1. -/
theorem Parts_roundtrip (m : Mem) (dst loAddr hiAddr : Nat) (v : Int)
    (hv : IsInt64 v) (hne : loAddr ≠ hiAddr) :
    (BigIntNatives.FromParts m dst (toInt32 (v % 4294967296)) (v / 4294967296)).2 = 1 ∧
    (BigIntNatives.GetParts
      (BigIntNatives.FromParts m dst (toInt32 (v % 4294967296)) (v / 4294967296)).1
      dst loAddr hiAddr).2 = 1 ∧
    (BigIntNatives.GetParts
      (BigIntNatives.FromParts m dst (toInt32 (v % 4294967296)) (v / 4294967296)).1
      dst loAddr hiAddr).1 loAddr = toInt32 (v % 4294967296) ∧
    (BigIntNatives.GetParts
      (BigIntNatives.FromParts m dst (toInt32 (v % 4294967296)) (v / 4294967296)).1
      dst loAddr hiAddr).1 hiAddr = v / 4294967296 ∧
    or64 (shl64 ((BigIntNatives.GetParts
        (BigIntNatives.FromParts m dst (toInt32 (v % 4294967296)) (v / 4294967296)).1
        dst loAddr hiAddr).1 hiAddr) 32)
      (toUInt32 ((BigIntNatives.GetParts
        (BigIntNatives.FromParts m dst (toInt32 (v % 4294967296)) (v / 4294967296)).1
        dst loAddr hiAddr).1 loAddr)) = v := by
  have hv2 := hv
  unfold IsInt64 INT64_MIN INT64_MAX at hv2
  have hhi : IsInt32 (v / 4294967296) := by
    unfold IsInt32 INT32_MIN INT32_MAX
    omega
  have hR : BigInt_Read
      (BigIntNatives.FromParts m dst (toInt32 (v % 4294967296)) (v / 4294967296)).1 dst
      = v := by
    rw [FromParts_value m dst _ _ hhi, BigInt_Read_Write]
    unfold toInt32 toInt64
    omega
  have hG : ∀ m1 : Mem, (BigIntNatives.GetParts m1 dst loAddr hiAddr).1 =
      storeCell (storeCell m1 loAddr
        (toInt32 (toUInt32 (and64 (BigInt_Read m1 dst) 4294967295))))
        hiAddr (toInt32 (toInt32 (sar64 (BigInt_Read m1 dst) 32))) := fun _ => rfl
  have e : sar64 v 32 = v / 4294967296 := by
    unfold sar64
    norm_num
  have hL : (BigIntNatives.GetParts
      (BigIntNatives.FromParts m dst (toInt32 (v % 4294967296)) (v / 4294967296)).1
      dst loAddr hiAddr).1 loAddr = toInt32 (v % 4294967296) := by
    rw [hG, hR, and64_mask]
    simp only [storeCell, hne, if_false, if_true]
    unfold toInt32 toUInt32
    omega
  have hH : (BigIntNatives.GetParts
      (BigIntNatives.FromParts m dst (toInt32 (v % 4294967296)) (v / 4294967296)).1
      dst loAddr hiAddr).1 hiAddr = v / 4294967296 := by
    rw [hG, hR, e]
    simp only [storeCell, if_true]
    unfold toInt32
    omega
  refine ⟨rfl, rfl, hL, hH, ?_⟩
  rw [hL, hH, or64_join _ _ hhi (by unfold toUInt32; omega)]
  unfold toInt32 toUInt32
  omega

theorem Parts_roundtrip_witness :
    IsInt64 (-5000000000) ∧
    (BigIntNatives.GetParts
      (BigIntNatives.FromParts (memOf []) 0 (toInt32 (-5000000000 % 4294967296))
        (-5000000000 / 4294967296)).1 0 2 3).1 2 = -705032704 ∧
    (BigIntNatives.GetParts
      (BigIntNatives.FromParts (memOf []) 0 (toInt32 (-5000000000 % 4294967296))
        (-5000000000 / 4294967296)).1 0 2 3).1 3 = -2 := by
  have h := Parts_roundtrip (memOf []) 0 2 3 (-5000000000) (by decide) (by decide)
  refine ⟨by decide, ?_, ?_⟩
  · rw [h.2.2.1]
    decide
  · rw [h.2.2.2.1]
    decide

/-! ## `std::stoll` and `FromString` -/

theorem not_isspace_of_isdigit {c : Char} (h : isdigit c = true) : isspace c = false := by
  unfold isdigit at h
  unfold isspace
  simp only [Bool.and_eq_true, decide_eq_true_eq] at h
  simp only [Bool.or_eq_false_iff, decide_eq_false_iff_not, Bool.and_eq_false_iff]
  omega

theorem takeWhile_digit_run (ds rest : List Char) (hds : ∀ c ∈ ds, isdigit c = true)
    (hrest : ∀ c, rest.head? = some c → isdigit c = false) :
    (ds ++ rest).takeWhile isdigit = ds := by
  rw [List.takeWhile_append_of_pos hds]
  cases rest with
  | nil => simp
  | cons c r =>
    have hc : isdigit c = false := hrest c rfl
    simp [hc]

/-- What `std::stoll` makes of a text with an integer prefix. -/
theorem stoll_prefix_value (str : List Char) (neg : Bool) (ds : List Char)
    (h : HasIntegerPrefix str neg ds) :
    stoll str = if INT64_MIN ≤ signedValue neg ds ∧ signedValue neg ds ≤ INT64_MAX
      then some (signedValue neg ds) else none := by
  obtain ⟨ws, sg, rest, rfl, hws, hsg, hne, hds, hrest⟩ := h
  obtain ⟨d, ds1, rfl⟩ := List.exists_cons_of_ne_nil hne
  have hd : isdigit d = true := hds d (List.mem_cons_self _ _)
  have hd1 : isspace d = false := not_isspace_of_isdigit hd
  have hd2 : d ≠ '-' := by
    rintro rfl
    revert hd
    decide
  have hd3 : d ≠ '+' := by
    rintro rfl
    revert hd
    decide
  have htw := takeWhile_digit_run (d :: ds1) rest hds hrest
  unfold stoll
  rw [List.dropWhile_append_of_pos hws]
  rcases hsg with ⟨rfl, rfl⟩ | ⟨rfl, rfl⟩ | ⟨rfl, rfl⟩
  · have e1 : List.dropWhile isspace ([] ++ (d :: ds1 ++ rest)) = d :: ds1 ++ rest := by
      simp [hd1]
    rw [e1]
    have e2 : ((d :: ds1 ++ rest).head? == some '-') = false := by
      simp [hd2]
    simp only [List.cons_append] at htw e2 ⊢
    simp only [e2, hd2, hd3, or_self, if_false, htw]
    simp
  · have e1 : List.dropWhile isspace (['+'] ++ (d :: ds1 ++ rest))
        = '+' :: (d :: ds1 ++ rest) := by
      simp [hd1]
      decide
    rw [e1]
    simp only [List.cons_append] at htw ⊢
    simp [htw]
  · have e1 : List.dropWhile isspace (['-'] ++ (d :: ds1 ++ rest))
        = '-' :: (d :: ds1 ++ rest) := by
      simp [hd1]
      decide
    rw [e1]
    simp only [List.cons_append] at htw ⊢
    simp [htw]

theorem digit_run_split (s : List Char) :
    s = s.takeWhile isdigit ++ s.dropWhile isdigit ∧
    (∀ c ∈ s.takeWhile isdigit, isdigit c = true) ∧
    (∀ c, (s.dropWhile isdigit).head? = some c → isdigit c = false) := by
  refine ⟨(List.takeWhile_append_dropWhile isdigit s).symm,
    fun c hc => List.mem_takeWhile_imp hc, ?_⟩
  intro c hc
  have h := List.head?_dropWhile_not isdigit s
  rw [hc] at h
  exact h

/-- A text that `std::stoll` converts has an integer prefix, whose value, a
`long long`, is the result. -/
theorem prefix_of_stoll (str : List Char) (v : Int) (h : stoll str = some v) :
    ∃ neg ds, HasIntegerPrefix str neg ds ∧ v = signedValue neg ds ∧ IsInt64 v := by
  have hsplit : str = str.takeWhile isspace ++ str.dropWhile isspace :=
    (List.takeWhile_append_dropWhile isspace str).symm
  have hws : ∀ c ∈ str.takeWhile isspace, isspace c = true :=
    fun c hc => List.mem_takeWhile_imp hc
  unfold stoll at h
  generalize hs1 : str.dropWhile isspace = s1 at h hsplit
  have fin : ∀ (neg : Bool) (sg s2 : List Char), s1 = sg ++ s2 →
      ((sg = [] ∧ neg = false) ∨ (sg = ['+'] ∧ neg = false) ∨ (sg = ['-'] ∧ neg = true)) →
      (if s2.takeWhile isdigit = [] then none
        else if INT64_MIN ≤ signedValue neg (s2.takeWhile isdigit) ∧
            signedValue neg (s2.takeWhile isdigit) ≤ INT64_MAX
          then some (signedValue neg (s2.takeWhile isdigit)) else none) = some v →
      ∃ neg ds, HasIntegerPrefix str neg ds ∧ v = signedValue neg ds ∧ IsInt64 v := by
    intro neg sg s2 e hsg hv
    obtain ⟨r1, r2, r3⟩ := digit_run_split s2
    split_ifs at hv with hnil hrange
    injection hv with hv
    refine ⟨neg, s2.takeWhile isdigit, ⟨str.takeWhile isspace, sg, s2.dropWhile isdigit,
      ?_, hws, hsg, hnil, r2, r3⟩, hv.symm, ?_⟩
    · rw [← r1, ← e]
      exact hsplit
    · rw [← hv]
      exact hrange
  cases s1 with
  | nil => simp at h
  | cons c r =>
    by_cases hm : c = '-'
    · subst hm
      exact fin true ['-'] r rfl (Or.inr (Or.inr ⟨rfl, rfl⟩)) (by simpa using h)
    · by_cases hp : c = '+'
      · subst hp
        exact fin false ['+'] r rfl (Or.inr (Or.inl ⟨rfl, rfl⟩)) (by simpa using h)
      · have hb : (c == '-') = false := by simp [hm]
        exact fin false [] (c :: r) rfl (Or.inl ⟨rfl, rfl⟩) (by simpa [hm, hp, hb] using h)

theorem FromString_eq (m : Mem) (dst : Nat) (str : List Char) :
    BigIntNatives.FromString m dst str =
      match stoll str with
      | some parsed => (BigInt_Write m dst (toInt64 parsed), 1)
      | none => (m, 0) := by
  unfold BigIntNatives.FromString
  cases str with
  | nil => rfl
  | cons c r => simp

/-- `FromString` succeeds exactly when `std::stoll` does not throw. -/
theorem FromString_snd (m : Mem) (dst : Nat) (str : List Char) :
    ((BigIntNatives.FromString m dst str).2 = 1 ↔ ∃ v, stoll str = some v) ∧
    (stoll str = none → BigIntNatives.FromString m dst str = (m, 0)) ∧
    (∀ v, stoll str = some v →
      BigIntNatives.FromString m dst str = (BigInt_Write m dst (toInt64 v), 1)) := by
  rw [FromString_eq]
  cases stoll str with
  | none => simp
  | some v => simp

/-- C9. FromString failure is atomic: whenever `FromString` returns 0 the data
segment, hence both cells of dst, is unchanged. It returns 0 for every text that
has no integer prefix whose value is a signed 64-bit number: for the empty text,
for `abc` (no integer to parse) and for `9223372036854775808` (out of range).
For `-42` it returns 1 and dst decodes to -42. -/
theorem FromString_failure_atomic (m : Mem) (dst : Nat) :
    (∀ str, (BigIntNatives.FromString m dst str).2 = 0 →
      (BigIntNatives.FromString m dst str).1 = m) ∧
    (∀ str, (¬∃ neg ds, HasIntegerPrefix str neg ds ∧ IsInt64 (signedValue neg ds)) →
      (BigIntNatives.FromString m dst str).2 = 0) ∧
    (BigIntNatives.FromString m dst []).2 = 0 ∧
    (BigIntNatives.FromString m dst "abc".toList).2 = 0 ∧
    (BigIntNatives.FromString m dst "9223372036854775808".toList).2 = 0 ∧
    (BigIntNatives.FromString m dst "-42".toList).2 = 1 ∧
    BigInt_Read (BigIntNatives.FromString m dst "-42".toList).1 dst = -42 := by
  have hnone : ∀ str, stoll str = none → BigIntNatives.FromString m dst str = (m, 0) :=
    fun str => (FromString_snd m dst str).2.1
  refine ⟨?_, ?_, ?_, ?_, ?_, ?_, ?_⟩
  · intro str h
    cases hs : stoll str with
    | none => rw [hnone str hs]
    | some v =>
      rw [(FromString_snd m dst str).2.2 v hs] at h
      simp at h
  · intro str h
    cases hs : stoll str with
    | none => rw [hnone str hs]
    | some v =>
      obtain ⟨neg, ds, h1, h2, h3⟩ := prefix_of_stoll str v hs
      exact absurd ⟨neg, ds, h1, h2 ▸ h3⟩ h
  · rw [hnone _ (by decide)]
  · rw [hnone _ (by decide)]
  · rw [hnone _ (by decide)]
  · rw [(FromString_snd m dst _).2.2 (-42) (by decide)]
  · rw [(FromString_snd m dst _).2.2 (-42) (by decide), BigInt_Read_Write]
    decide

theorem FromString_failure_atomic_witness :
    (BigIntNatives.FromString (memOf [10, 0]) 0 "abc".toList).2 = 0 ∧
    (BigIntNatives.FromString (memOf [10, 0]) 0 "abc".toList).1 = memOf [10, 0] :=
  ⟨by decide,
   (FromString_failure_atomic (memOf [10, 0]) 0).1 "abc".toList (by decide)⟩

/-- C10 as stated fails: for the text `12abc`, on a dst that decodes to 7,
`FromString` returns 1 and leaves dst decoding to 12. -/
theorem FromString_accepts_trailing_text :
    BigInt_Read (memOf [7, 0]) 0 = 7 ∧
    (BigIntNatives.FromString (memOf [7, 0]) 0 "12abc".toList).2 = 1 ∧
    BigInt_Read (BigIntNatives.FromString (memOf [7, 0]) 0 "12abc".toList).1 0 = 12 := by
  decide

/-- C10, amended. `FromString` returns 1 if and only if the text begins, after
optional white space and an optional sign, with at least one decimal digit, and
the value of the leading run of digits with its sign lies in the signed 64-bit
range; dst then decodes to that value, and what follows the digits is ignored
(`12abc` returns 1 and leaves dst decoding to 12). In every other case it returns
0 and the data segment is unchanged. -/
theorem FromString_accepts_leading_integer (m : Mem) (dst : Nat) (str : List Char) :
    ((BigIntNatives.FromString m dst str).2 = 1 ↔
      ∃ neg ds, HasIntegerPrefix str neg ds ∧ IsInt64 (signedValue neg ds)) ∧
    (∀ neg ds, HasIntegerPrefix str neg ds → IsInt64 (signedValue neg ds) →
      (BigIntNatives.FromString m dst str).2 = 1 ∧
      BigInt_Read (BigIntNatives.FromString m dst str).1 dst = signedValue neg ds) ∧
    ((BigIntNatives.FromString m dst str).2 ≠ 1 →
      BigIntNatives.FromString m dst str = (m, 0)) ∧
    (BigIntNatives.FromString m dst "12abc".toList).2 = 1 ∧
    BigInt_Read (BigIntNatives.FromString m dst "12abc".toList).1 dst = 12 := by
  obtain ⟨h1, h2, h3⟩ := FromString_snd m dst str
  have hyes : ∀ neg ds, HasIntegerPrefix str neg ds → IsInt64 (signedValue neg ds) →
      stoll str = some (signedValue neg ds) := by
    intro neg ds hp hr
    have hr2 : INT64_MIN ≤ signedValue neg ds ∧ signedValue neg ds ≤ INT64_MAX := hr
    rw [stoll_prefix_value str neg ds hp, if_pos hr2]
  refine ⟨?_, ?_, ?_, ?_, ?_⟩
  · rw [h1]
    constructor
    · rintro ⟨v, hv⟩
      obtain ⟨neg, ds, a, b, c⟩ := prefix_of_stoll str v hv
      exact ⟨neg, ds, a, b ▸ c⟩
    · rintro ⟨neg, ds, hp, hr⟩
      exact ⟨_, hyes neg ds hp hr⟩
  · intro neg ds hp hr
    rw [h3 _ (hyes neg ds hp hr)]
    refine ⟨rfl, ?_⟩
    rw [BigInt_Read_Write, toInt64_of_isInt64 (isInt64_toInt64 _), toInt64_of_isInt64 hr]
  · intro hne
    cases hs : stoll str with
    | none => exact h2 hs
    | some v => exact absurd (h1.2 ⟨v, hs⟩) hne
  · rw [(FromString_snd m dst _).2.2 12 (by decide)]
  · rw [(FromString_snd m dst _).2.2 12 (by decide), BigInt_Read_Write]
    decide

theorem FromString_accepts_leading_integer_witness :
    HasIntegerPrefix " -12abc".toList true "12".toList ∧
    IsInt64 (signedValue true "12".toList) ∧
    (BigIntNatives.FromString (memOf [7, 0]) 0 " -12abc".toList).2 = 1 ∧
    BigInt_Read (BigIntNatives.FromString (memOf [7, 0]) 0 " -12abc".toList).1 0 = -12 := by
  have hp : HasIntegerPrefix " -12abc".toList true "12".toList :=
    ⟨" ".toList, "-".toList, "abc".toList, by decide, by decide, by decide, by decide,
      by decide, by decide⟩
  have h := (FromString_accepts_leading_integer (memOf [7, 0]) 0 " -12abc".toList).2.1
    true "12".toList hp (by decide)
  refine ⟨hp, by decide, h.1, ?_⟩
  rw [h.2]
  decide

/-! ## Division, remainder and the literal variants -/

theorem Div_eq (m : Mem) (dst src : Nat) :
    BigIntNatives.Div m dst src =
      if BigInt_Read m src = 0 then some (m, 0)
      else (div64 (BigInt_Read m dst) (BigInt_Read m src)).map
        (fun q => (BigInt_Write m dst q, 1)) := by
  unfold BigIntNatives.Div GetBigIntPtr
  simp only []
  split
  · rfl
  · cases div64 (BigInt_Read m dst) (BigInt_Read m src) <;> rfl

theorem Mod_eq (m : Mem) (dst src : Nat) :
    BigIntNatives.Mod m dst src =
      if BigInt_Read m src = 0 then some (m, 0)
      else (mod64 (BigInt_Read m dst) (BigInt_Read m src)).map
        (fun r => (BigInt_Write m dst r, 1)) := by
  unfold BigIntNatives.Mod GetBigIntPtr
  simp only []
  split
  · rfl
  · cases mod64 (BigInt_Read m dst) (BigInt_Read m src) <;> rfl

theorem DivInt_eq (m : Mem) (dst : Nat) (v : Int) :
    BigIntNatives.DivInt m dst v =
      if v = 0 then some (m, 0)
      else (div64 (BigInt_Read m dst) (toInt64 v)).map
        (fun q => (BigInt_Write m dst q, 1)) := by
  unfold BigIntNatives.DivInt GetBigIntPtr
  simp only []
  split
  · rfl
  · cases div64 (BigInt_Read m dst) (toInt64 v) <;> rfl

theorem ModInt_eq (m : Mem) (dst : Nat) (v : Int) :
    BigIntNatives.ModInt m dst v =
      if v = 0 then some (m, 0)
      else (mod64 (BigInt_Read m dst) (toInt64 v)).map
        (fun r => (BigInt_Write m dst r, 1)) := by
  unfold BigIntNatives.ModInt GetBigIntPtr
  simp only []
  split
  · rfl
  · cases mod64 (BigInt_Read m dst) (toInt64 v) <;> rfl

theorem mod64_eq (a b : Int) (hb : b ≠ 0) (hov : ¬(a = INT64_MIN ∧ b = -1)) :
    mod64 a b = some (Int.tmod a b) := by
  unfold mod64
  rw [if_neg]
  rintro (h | h)
  · exact hb h
  · exact hov h

theorem div64_eq (a b : Int) (hb : b ≠ 0) (hov : ¬(a = INT64_MIN ∧ b = -1)) :
    div64 a b = some (Int.tdiv a b) := by
  unfold div64
  rw [if_neg]
  rintro (h | h)
  · exact hb h
  · exact hov h

/-- C12. Mod and ModInt use the sign-of-dividend remainder: with `a` the value of
dst and `b` the divisor (the value of the src pair, or the 32-bit literal), if
`b ≠ 0` and `(a, b) ≠ (INT64_MIN, -1)` the call returns 1 and leaves dst decoding
to `r` with `a = q * b + r`, `q` the quotient truncated toward zero, `|r| < |b|`
and `r` zero or of the sign of `a`; if `b = 0` it returns 0 and the data segment,
hence dst, is unchanged. -/
theorem Mod_ModInt_remainder (m : Mem) (dst src : Nat) :
    (BigInt_Read m src = 0 → BigIntNatives.Mod m dst src = some (m, 0)) ∧
    (BigInt_Read m src ≠ 0 →
      ¬(BigInt_Read m dst = INT64_MIN ∧ BigInt_Read m src = -1) →
      ∃ m1, BigIntNatives.Mod m dst src = some (m1, 1) ∧
        BigInt_Read m dst =
          Int.tdiv (BigInt_Read m dst) (BigInt_Read m src) * BigInt_Read m src
            + BigInt_Read m1 dst ∧
        (BigInt_Read m1 dst).natAbs < (BigInt_Read m src).natAbs ∧
        (BigInt_Read m1 dst = 0 ∨
          Int.sign (BigInt_Read m1 dst) = Int.sign (BigInt_Read m dst))) ∧
    (BigIntNatives.ModInt m dst 0 = some (m, 0)) ∧
    (∀ v : Int, IsInt32 v → v ≠ 0 →
      ¬(BigInt_Read m dst = INT64_MIN ∧ v = -1) →
      ∃ m1, BigIntNatives.ModInt m dst v = some (m1, 1) ∧
        BigInt_Read m dst = Int.tdiv (BigInt_Read m dst) v * v + BigInt_Read m1 dst ∧
        (BigInt_Read m1 dst).natAbs < v.natAbs ∧
        (BigInt_Read m1 dst = 0 ∨
          Int.sign (BigInt_Read m1 dst) = Int.sign (BigInt_Read m dst))) := by
  have key : ∀ b : Int, b ≠ 0 →
      BigInt_Read (BigInt_Write m dst (Int.tmod (BigInt_Read m dst) b)) dst =
        Int.tmod (BigInt_Read m dst) b := by
    intro b hb
    rw [BigInt_Read_Write]
    exact toInt64_of_isInt64 (isInt64_tmod _ _ (isInt64_BigInt_Read m dst) hb)
  refine ⟨?_, ?_, ?_, ?_⟩
  · intro hb
    rw [Mod_eq, if_pos hb]
  · intro hb hov
    obtain ⟨f1, f2, f3, -⟩ := tmod_facts (BigInt_Read m dst) (BigInt_Read m src) hb
    refine ⟨BigInt_Write m dst (Int.tmod (BigInt_Read m dst) (BigInt_Read m src)), ?_, ?_, ?_, ?_⟩
    · rw [Mod_eq, if_neg hb, mod64_eq _ _ hb hov]
      rfl
    · rw [key _ hb]
      exact f1
    · rw [key _ hb]
      exact f2
    · rw [key _ hb]
      exact f3
  · rw [ModInt_eq, if_pos rfl]
  · intro v hv hb hov
    have hv64 : toInt64 v = v := by
      unfold IsInt32 INT32_MIN INT32_MAX at hv
      unfold toInt64
      omega
    obtain ⟨f1, f2, f3, -⟩ := tmod_facts (BigInt_Read m dst) v hb
    refine ⟨BigInt_Write m dst (Int.tmod (BigInt_Read m dst) v), ?_, ?_, ?_, ?_⟩
    · rw [ModInt_eq, if_neg hb, hv64, mod64_eq _ _ hb hov]
      rfl
    · rw [key _ hb]
      exact f1
    · rw [key _ hb]
      exact f2
    · rw [key _ hb]
      exact f3

theorem Mod_ModInt_remainder_witness :
    (BigInt_Read (memOf [7, 0]) 0 = 7 ∧
      ∃ m1, BigIntNatives.ModInt (memOf [7, 0]) 0 3 = some (m1, 1) ∧ BigInt_Read m1 0 = 1) ∧
    (BigInt_Read (memOf [-7, -1, 2, 0]) 0 = -7 ∧ BigInt_Read (memOf [-7, -1, 2, 0]) 2 = 2 ∧
      ∃ m1, BigIntNatives.Mod (memOf [-7, -1, 2, 0]) 0 2 = some (m1, 1) ∧
        BigInt_Read m1 0 = -1) ∧
    BigIntNatives.Mod (memOf [7, 0, 0, 0]) 0 2 = some (memOf [7, 0, 0, 0], 0) := by
  refine ⟨⟨by decide, ?_⟩, ⟨by decide, by decide, ?_⟩,
    (Mod_ModInt_remainder (memOf [7, 0, 0, 0]) 0 2).1 (by decide)⟩
  · obtain ⟨m1, h1, h2, -, -⟩ :=
      (Mod_ModInt_remainder (memOf [7, 0]) 0 0).2.2.2 3 (by decide) (by decide) (by decide)
    refine ⟨m1, h1, ?_⟩
    have e : BigInt_Read (memOf [7, 0]) 0 = 7 := by decide
    rw [e] at h2
    have e2 : Int.tdiv 7 3 * 3 = 6 := by decide
    omega
  · obtain ⟨m1, h1, h2, -, -⟩ :=
      (Mod_ModInt_remainder (memOf [-7, -1, 2, 0]) 0 2).2.1 (by decide) (by decide)
    refine ⟨m1, h1, ?_⟩
    have e : BigInt_Read (memOf [-7, -1, 2, 0]) 0 = -7 := by decide
    have e1 : BigInt_Read (memOf [-7, -1, 2, 0]) 2 = 2 := by decide
    rw [e, e1] at h2
    have e2 : Int.tdiv (-7) 2 * 2 = -6 := by decide
    omega

theorem resultAt_write (m1 m2 : Mem) (dst : Nat) (x r : Int) :
    resultAt dst (BigInt_Write m1 dst x, r) = resultAt dst (BigInt_Write m2 dst x, r) := by
  simp only [resultAt, BigInt_Write_lo, BigInt_Write_hi]

/-- A pair `s` written by `FromInt(s, v)`, seen from a pair `dst` that shares no
cell with it: dst keeps its cells and its value, and `s` decodes to `v`. -/
theorem FromInt_separate (m : Mem) (dst s : Nat) (v : Int) (hv : IsInt32 v)
    (hsep : s + 1 < dst ∨ dst + 1 < s) :
    (BigIntNatives.FromInt m s v).1 dst = m dst ∧
    (BigIntNatives.FromInt m s v).1 (dst + 1) = m (dst + 1) ∧
    BigInt_Read (BigIntNatives.FromInt m s v).1 dst = BigInt_Read m dst ∧
    BigInt_Read (BigIntNatives.FromInt m s v).1 s = v ∧
    toInt64 v = v := by
  have hF : (BigIntNatives.FromInt m s v).1 = BigInt_Write m s (toInt64 v) := rfl
  have hv64 : toInt64 v = v := by
    unfold IsInt32 INT32_MIN INT32_MAX at hv
    unfold toInt64
    omega
  have h0 : BigInt_Write m s (toInt64 v) dst = m dst :=
    BigInt_Write_other _ _ _ _ (by omega) (by omega)
  have h1 : BigInt_Write m s (toInt64 v) (dst + 1) = m (dst + 1) :=
    BigInt_Write_other _ _ _ _ (by omega) (by omega)
  rw [hF]
  refine ⟨h0, h1, ?_, ?_, hv64⟩
  · rw [BigInt_Read_eq, BigInt_Read_eq, h0, h1]
  · rw [BigInt_Read_Write, hv64, hv64]

/-- C13. Literal variants agree with pair variants: for every dst pair, every
32-bit `v` and every pair `s` that shares no cell with dst, each of `AddInt`,
`SubInt`, `MulInt`, `DivInt`, `ModInt` and `CmpInt` on `(dst, v)` gives the same
return value and the same two dst cells as `Add`, `Sub`, `Mul`, `Div`, `Mod` and
`Cmp` on `(dst, s)` after `FromInt(s, v)` (for `INT64_MIN` and `-1` neither
division has a result); `DivInt` and `ModInt` return 0, with the data segment
unchanged, when `v = 0` and never return 0 when `v ≠ 0`. -/
theorem literal_variants_agree (m : Mem) (dst s : Nat) (v : Int) (hv : IsInt32 v)
    (hsep : s + 1 < dst ∨ dst + 1 < s) :
    resultAt dst (BigIntNatives.AddInt m dst v) =
      resultAt dst (BigIntNatives.Add (BigIntNatives.FromInt m s v).1 dst s) ∧
    resultAt dst (BigIntNatives.SubInt m dst v) =
      resultAt dst (BigIntNatives.Sub (BigIntNatives.FromInt m s v).1 dst s) ∧
    resultAt dst (BigIntNatives.MulInt m dst v) =
      resultAt dst (BigIntNatives.Mul (BigIntNatives.FromInt m s v).1 dst s) ∧
    (BigIntNatives.DivInt m dst v).map (resultAt dst) =
      (BigIntNatives.Div (BigIntNatives.FromInt m s v).1 dst s).map (resultAt dst) ∧
    (BigIntNatives.ModInt m dst v).map (resultAt dst) =
      (BigIntNatives.Mod (BigIntNatives.FromInt m s v).1 dst s).map (resultAt dst) ∧
    resultAt dst (BigIntNatives.CmpInt m dst v) =
      resultAt dst (BigIntNatives.Cmp (BigIntNatives.FromInt m s v).1 dst s) ∧
    (v = 0 → BigIntNatives.DivInt m dst v = some (m, 0) ∧
      BigIntNatives.ModInt m dst v = some (m, 0)) ∧
    (v ≠ 0 → ∀ m1, BigIntNatives.DivInt m dst v ≠ some (m1, 0) ∧
      BigIntNatives.ModInt m dst v ≠ some (m1, 0)) := by
  obtain ⟨c0, c1, rd, rs, hv64⟩ := FromInt_separate m dst s v hv hsep
  have hAI : BigIntNatives.AddInt m dst v =
      (BigInt_Write m dst (add64 (BigInt_Read m dst) (toInt64 v)), 1) := rfl
  have hSI : BigIntNatives.SubInt m dst v =
      (BigInt_Write m dst (sub64 (BigInt_Read m dst) (toInt64 v)), 1) := rfl
  have hMI : BigIntNatives.MulInt m dst v =
      (BigInt_Write m dst (mul64 (BigInt_Read m dst) (toInt64 v)), 1) := rfl
  have hA : ∀ m2 : Mem, BigIntNatives.Add m2 dst s =
      (BigInt_Write m2 dst (add64 (BigInt_Read m2 dst) (BigInt_Read m2 s)), 1) :=
    fun _ => rfl
  have hS : ∀ m2 : Mem, BigIntNatives.Sub m2 dst s =
      (BigInt_Write m2 dst (sub64 (BigInt_Read m2 dst) (BigInt_Read m2 s)), 1) :=
    fun _ => rfl
  have hM : ∀ m2 : Mem, BigIntNatives.Mul m2 dst s =
      (BigInt_Write m2 dst (mul64 (BigInt_Read m2 dst) (BigInt_Read m2 s)), 1) :=
    fun _ => rfl
  have hCI : BigIntNatives.CmpInt m dst v =
      if BigInt_Read m dst < toInt64 v then (m, -1)
      else if BigInt_Read m dst > toInt64 v then (m, 1) else (m, 0) := rfl
  have hC : ∀ m2 : Mem, BigIntNatives.Cmp m2 dst s =
      if BigInt_Read m2 dst < BigInt_Read m2 s then (m2, -1)
      else if BigInt_Read m2 dst > BigInt_Read m2 s then (m2, 1) else (m2, 0) :=
    fun _ => rfl
  refine ⟨?_, ?_, ?_, ?_, ?_, ?_, ?_, ?_⟩
  · rw [hAI, hA, rd, rs, hv64]
    exact resultAt_write _ _ _ _ _
  · rw [hSI, hS, rd, rs, hv64]
    exact resultAt_write _ _ _ _ _
  · rw [hMI, hM, rd, rs, hv64]
    exact resultAt_write _ _ _ _ _
  · rw [DivInt_eq, Div_eq, rd, rs, hv64]
    by_cases h0 : v = 0
    · rw [if_pos h0, if_pos h0]
      simp only [Option.map_some', resultAt, c0, c1]
    · rw [if_neg h0, if_neg h0]
      cases div64 (BigInt_Read m dst) v with
      | none => rfl
      | some q =>
        simp only [Option.map_some']
        exact congrArg some (resultAt_write _ _ _ _ _)
  · rw [ModInt_eq, Mod_eq, rd, rs, hv64]
    by_cases h0 : v = 0
    · rw [if_pos h0, if_pos h0]
      simp only [Option.map_some', resultAt, c0, c1]
    · rw [if_neg h0, if_neg h0]
      cases mod64 (BigInt_Read m dst) v with
      | none => rfl
      | some q =>
        simp only [Option.map_some']
        exact congrArg some (resultAt_write _ _ _ _ _)
  · rw [hCI, hC, rd, rs, hv64]
    split_ifs <;> simp only [resultAt, c0, c1]
  · intro h0
    rw [DivInt_eq, ModInt_eq, if_pos h0, if_pos h0]
    exact ⟨rfl, rfl⟩
  · intro h0 m1
    rw [DivInt_eq, ModInt_eq, if_neg h0, if_neg h0]
    constructor
    · cases div64 (BigInt_Read m dst) (toInt64 v) <;> simp
    · cases mod64 (BigInt_Read m dst) (toInt64 v) <;> simp

theorem literal_variants_agree_witness :
    IsInt32 (-3) ∧
    resultAt 0 (BigIntNatives.AddInt (memOf [7, 0]) 0 (-3)) = (1, 4, 0) ∧
    resultAt 0 (BigIntNatives.Add (BigIntNatives.FromInt (memOf [7, 0]) 2 (-3)).1 0 2)
      = (1, 4, 0) ∧
    (BigIntNatives.DivInt (memOf [7, 0]) 0 (-3)).map (resultAt 0) = some (1, -2, -1) ∧
    (BigIntNatives.Div (BigIntNatives.FromInt (memOf [7, 0]) 2 (-3)).1 0 2).map (resultAt 0)
      = some (1, -2, -1) := by
  have h := literal_variants_agree (memOf [7, 0]) 0 2 (-3) (by decide) (by decide)
  have a1 : resultAt 0 (BigIntNatives.AddInt (memOf [7, 0]) 0 (-3)) = (1, 4, 0) := by
    decide
  have a2 : (BigIntNatives.DivInt (memOf [7, 0]) 0 (-3)).map (resultAt 0)
      = some (1, -2, -1) := by
    decide
  exact ⟨by decide, a1, h.1 ▸ a1, a2, h.2.2.2.1 ▸ a2⟩

/-- C14. FromInt widens with sign: for every 32-bit `v`, `FromInt` returns 1 and
leaves dst decoding to `v`; the low cell is `v` and the high cell is -1 if
`v < 0` and 0 otherwise; `ToInt` on dst then returns `v` and `CmpInt(dst, v)`
returns 0. -/
theorem FromInt_widens (m : Mem) (dst : Nat) (v : Int) (hv : IsInt32 v) :
    (BigIntNatives.FromInt m dst v).2 = 1 ∧
    BigInt_Read (BigIntNatives.FromInt m dst v).1 dst = v ∧
    (BigIntNatives.FromInt m dst v).1 dst = v ∧
    (BigIntNatives.FromInt m dst v).1 (dst + 1) = (if v < 0 then -1 else 0) ∧
    (BigIntNatives.ToInt (BigIntNatives.FromInt m dst v).1 dst).2 = v ∧
    (BigIntNatives.CmpInt (BigIntNatives.FromInt m dst v).1 dst v).2 = 0 := by
  have hF : (BigIntNatives.FromInt m dst v).1 = BigInt_Write m dst (toInt64 v) := rfl
  have hv2 := hv
  unfold IsInt32 INT32_MIN INT32_MAX at hv2
  have hv64 : toInt64 v = v := by
    unfold toInt64
    omega
  have hR : BigInt_Read (BigIntNatives.FromInt m dst v).1 dst = v := by
    rw [hF, BigInt_Read_Write, hv64, hv64]
  have hT : ∀ m2 : Mem, (BigIntNatives.ToInt m2 dst).2 =
      toInt32 (if (if BigInt_Read m2 dst > INT32_MAX then INT32_MAX else BigInt_Read m2 dst)
          < INT32_MIN then INT32_MIN
        else (if BigInt_Read m2 dst > INT32_MAX then INT32_MAX else BigInt_Read m2 dst)) :=
    fun _ => rfl
  have hCI : ∀ m2 : Mem, BigIntNatives.CmpInt m2 dst v =
      if BigInt_Read m2 dst < toInt64 v then (m2, -1)
      else if BigInt_Read m2 dst > toInt64 v then (m2, 1) else (m2, 0) :=
    fun _ => rfl
  refine ⟨rfl, hR, ?_, ?_, ?_, ?_⟩
  · rw [hF, BigInt_Write_lo, hv64]
    unfold toInt32
    omega
  · rw [hF, BigInt_Write_hi, hv64]
    unfold toInt32
    split_ifs <;> omega
  · rw [hT, hR]
    unfold INT32_MAX INT32_MIN toInt32
    split_ifs <;> omega
  · rw [hCI, hR, hv64]
    simp

theorem FromInt_widens_witness :
    IsInt32 (-5) ∧
    BigInt_Read (BigIntNatives.FromInt (memOf [9, 9]) 0 (-5)).1 0 = -5 ∧
    (BigIntNatives.FromInt (memOf [9, 9]) 0 (-5)).1 0 = -5 ∧
    (BigIntNatives.FromInt (memOf [9, 9]) 0 (-5)).1 1 = -1 ∧
    (BigIntNatives.ToInt (BigIntNatives.FromInt (memOf [9, 9]) 0 (-5)).1 0).2 = -5 := by
  have h := FromInt_widens (memOf [9, 9]) 0 (-5) (by decide)
  exact ⟨by decide, h.2.1, h.2.2.1, by rw [h.2.2.2.1]; decide, h.2.2.2.2.1⟩

/-! ## The wrappers of `main.cpp` -/

/-- C16, the code at the failing input `lo = -1` (`0xFFFFFFFF`), `hi = 0`: the
plugin native `FromParts` writes the cells `-1, 0`, a pair decoding to
4294967295; the open.mp wrapper `BigInt_FromParts` ORs the sign-extended `lo`
into the value and writes the cells `-1, -1`, a pair decoding to -1. -/
theorem FromParts_entry_points_differ :
    IsInt32 (-1) ∧ IsInt32 0 ∧
    (BigIntNatives.FromParts (memOf []) 0 (-1) 0).1 0 = -1 ∧
    (BigIntNatives.FromParts (memOf []) 0 (-1) 0).1 1 = 0 ∧
    BigInt_Read (BigIntNatives.FromParts (memOf []) 0 (-1) 0).1 0 = 4294967295 ∧
    (BigInt_FromParts (memOf []) 0 (-1) 0).1 0 = -1 ∧
    (BigInt_FromParts (memOf []) 0 (-1) 0).1 1 = -1 ∧
    BigInt_Read (BigInt_FromParts (memOf []) 0 (-1) 0).1 0 = -1 := by
  decide

/-- C17, the code at the failing inputs: for the texts `abc`, the empty text and
`9223372036854775808` the plugin native `FromString` returns 0 and leaves the
data segment as it was, while in the open.mp wrapper `BigInt_FromString` the
exception of `std::stoll` leaves the body: there is no return value. -/
theorem BigInt_FromString_throws :
    BigIntNatives.FromString (memOf [10, 0]) 0 "abc".toList = (memOf [10, 0], 0) ∧
    BigInt_FromString (memOf [10, 0]) 0 "abc".toList = none ∧
    BigIntNatives.FromString (memOf [10, 0]) 0 [] = (memOf [10, 0], 0) ∧
    BigInt_FromString (memOf [10, 0]) 0 [] = none ∧
    BigIntNatives.FromString (memOf [10, 0]) 0 "9223372036854775808".toList
      = (memOf [10, 0], 0) ∧
    BigInt_FromString (memOf [10, 0]) 0 "9223372036854775808".toList = none :=
  ⟨rfl, rfl, rfl, rfl, rfl, rfl⟩

/-! ## Cells and values -/

/-- The value of a pair of 32-bit cells. -/
theorem BigInt_Read_cells (m : Mem) (p : Nat) (h1 : IsInt32 (m (p + 1))) :
    BigInt_Read m p = m (p + 1) * 4294967296 + m p % 4294967296 := by
  rw [BigInt_Read_eq, toInt32_of_isInt32 h1]
  rfl

/-- What `GetParts` stores. -/
theorem GetParts_stores (m : Mem) (p loAddr hiAddr : Nat) :
    (BigIntNatives.GetParts m p loAddr hiAddr).1 =
      storeCell (storeCell m loAddr (toInt32 (BigInt_Read m p % 4294967296)))
        hiAddr (toInt32 (BigInt_Read m p / 4294967296)) := by
  have hG : (BigIntNatives.GetParts m p loAddr hiAddr).1 =
      storeCell (storeCell m loAddr
        (toInt32 (toUInt32 (and64 (BigInt_Read m p) 4294967295))))
        hiAddr (toInt32 (toInt32 (sar64 (BigInt_Read m p) 32))) := rfl
  have e : sar64 (BigInt_Read m p) 32 = BigInt_Read m p / 4294967296 := by
    unfold sar64
    norm_num
  have e1 : toInt32 (toUInt32 (BigInt_Read m p % 4294967296))
      = toInt32 (BigInt_Read m p % 4294967296) := by
    unfold toInt32 toUInt32
    omega
  have e2 : toInt32 (toInt32 (BigInt_Read m p / 4294967296))
      = toInt32 (BigInt_Read m p / 4294967296) := by
    unfold toInt32
    omega
  rw [hG, and64_mask, e, e1, e2]

/-- C18. Every pair of 32-bit cells is canonical: writing `BigInt_Read(p)` back
with `BigInt_Write` reproduces the two cells (and so the whole data segment);
decoding is injective: two pairs of 32-bit cells that decode to the same value
have equal cells; and `GetParts` stores exactly `p[0]` and `p[1]` in its two
outputs (two different cells). -/
theorem pair_canonical (m : Mem) (p : Nat) (h0 : IsInt32 (m p)) (h1 : IsInt32 (m (p + 1))) :
    BigInt_Write m p (BigInt_Read m p) p = m p ∧
    BigInt_Write m p (BigInt_Read m p) (p + 1) = m (p + 1) ∧
    BigInt_Write m p (BigInt_Read m p) = m ∧
    (∀ (m2 : Mem) (q : Nat), IsInt32 (m2 q) → IsInt32 (m2 (q + 1)) →
      BigInt_Read m p = BigInt_Read m2 q → m p = m2 q ∧ m (p + 1) = m2 (q + 1)) ∧
    (∀ loAddr hiAddr : Nat, loAddr ≠ hiAddr →
      (BigIntNatives.GetParts m p loAddr hiAddr).2 = 1 ∧
      (BigIntNatives.GetParts m p loAddr hiAddr).1 loAddr = m p ∧
      (BigIntNatives.GetParts m p loAddr hiAddr).1 hiAddr = m (p + 1)) := by
  have hR := BigInt_Read_cells m p h1
  have g0 := h0
  have g1 := h1
  unfold IsInt32 INT32_MIN INT32_MAX at g0 g1
  have c0 : BigInt_Write m p (BigInt_Read m p) p = m p := by
    rw [BigInt_Write_lo, hR]
    unfold toInt32
    omega
  have c1 : BigInt_Write m p (BigInt_Read m p) (p + 1) = m (p + 1) := by
    rw [BigInt_Write_hi, hR]
    unfold toInt32
    omega
  refine ⟨c0, c1, ?_, ?_, ?_⟩
  · funext q
    by_cases e0 : q = p
    · rw [e0, c0]
    · by_cases e1 : q = p + 1
      · rw [e1, c1]
      · exact BigInt_Write_other _ _ _ _ e0 e1
  · intro m2 q k0 k1 he
    rw [hR, BigInt_Read_cells m2 q k1] at he
    unfold IsInt32 INT32_MIN INT32_MAX at k0 k1
    omega
  · intro loAddr hiAddr hne
    refine ⟨rfl, ?_, ?_⟩
    · rw [GetParts_stores, hR]
      simp only [storeCell, hne, if_false, if_true]
      unfold toInt32
      omega
    · rw [GetParts_stores, hR]
      simp only [storeCell, if_true]
      unfold toInt32
      omega

theorem pair_canonical_witness :
    IsInt32 (memOf [-7, 5] 0) ∧ IsInt32 (memOf [-7, 5] 1) ∧
    BigInt_Read (memOf [-7, 5]) 0 = 25769803769 ∧
    BigInt_Write (memOf [-7, 5]) 0 (BigInt_Read (memOf [-7, 5]) 0) = memOf [-7, 5] ∧
    (BigIntNatives.GetParts (memOf [-7, 5]) 0 2 3).1 2 = -7 ∧
    (BigIntNatives.GetParts (memOf [-7, 5]) 0 2 3).1 3 = 5 := by
  have h := pair_canonical (memOf [-7, 5]) 0 (by decide) (by decide)
  refine ⟨by decide, by decide, by decide, h.2.2.1, ?_, ?_⟩
  · rw [(h.2.2.2.2 2 3 (by decide)).2.1]
    decide
  · rw [(h.2.2.2.2 2 3 (by decide)).2.2]
    decide

/-- C19. Cmp orders pairs of 32-bit cells lexicographically by (high cell as a
signed value, low cell as an unsigned value): `Cmp(a, b) = -1` if and only if
`a[1] < b[1]`, or `a[1] = b[1]` and `a[0] < b[0]` as unsigned values; and
`Cmp(a, b) = 0` if and only if both cells are equal. -/
theorem Cmp_lexicographic (m : Mem) (a b : Nat)
    (ha0 : IsInt32 (m a)) (ha1 : IsInt32 (m (a + 1)))
    (hb0 : IsInt32 (m b)) (hb1 : IsInt32 (m (b + 1))) :
    ((BigIntNatives.Cmp m a b).2 = -1 ↔
      m (a + 1) < m (b + 1) ∨
        (m (a + 1) = m (b + 1) ∧ toUInt32 (m a) < toUInt32 (m b))) ∧
    ((BigIntNatives.Cmp m a b).2 = 0 ↔ m a = m b ∧ m (a + 1) = m (b + 1)) := by
  have hC : BigIntNatives.Cmp m a b =
      if BigInt_Read m a < BigInt_Read m b then (m, -1)
      else if BigInt_Read m a > BigInt_Read m b then (m, 1) else (m, 0) := rfl
  have hA := BigInt_Read_cells m a ha1
  have hB := BigInt_Read_cells m b hb1
  unfold IsInt32 INT32_MIN INT32_MAX at ha0 ha1 hb0 hb1
  constructor
  · rw [hC]
    unfold toUInt32
    split_ifs <;> simp <;> omega
  · rw [hC]
    split_ifs <;> simp <;> omega

theorem Cmp_lexicographic_witness :
    (BigIntNatives.Cmp (memOf [-1, 0, 0, 1]) 0 2).2 = -1 ∧
    (BigIntNatives.Cmp (memOf [5, -1, -1, -1]) 0 2).2 = -1 ∧
    ((BigIntNatives.Cmp (memOf [5, 7, 5, 7]) 0 2).2 = 0 ↔
      memOf [5, 7, 5, 7] 0 = memOf [5, 7, 5, 7] 2 ∧
        memOf [5, 7, 5, 7] 1 = memOf [5, 7, 5, 7] 3) :=
  ⟨(Cmp_lexicographic (memOf [-1, 0, 0, 1]) 0 2 (by decide) (by decide) (by decide)
      (by decide)).1.2 (by decide),
   (Cmp_lexicographic (memOf [5, -1, -1, -1]) 0 2 (by decide) (by decide) (by decide)
      (by decide)).1.2 (by decide),
   (Cmp_lexicographic (memOf [5, 7, 5, 7]) 0 2 (by decide) (by decide) (by decide)
      (by decide)).2⟩

/-- C20 as stated fails: the pair at cell 1 is distinct from the pair at cell 0
and shares the cell 1 with it. With the cells `0, 0, 1`, `Add(dst, src)` for
dst at 0 and src at 1 adds `2^32` and leaves the cells `0, 1, 1`, which changes
src to `2^32 + 1`; `Sub(dst, src)` then leaves dst with the cells `-1, -1`, not
`0, 0`. -/
theorem Add_Sub_overlapping_src :
    BigInt_Read (memOf [0, 0, 1]) 0 = 0 ∧
    BigInt_Read (memOf [0, 0, 1]) 1 = 4294967296 ∧
    BigInt_Read (BigIntNatives.Add (memOf [0, 0, 1]) 0 1).1 1 = 4294967297 ∧
    (BigIntNatives.Sub (BigIntNatives.Add (memOf [0, 0, 1]) 0 1).1 0 1).1 0 = -1 ∧
    (BigIntNatives.Sub (BigIntNatives.Add (memOf [0, 0, 1]) 0 1).1 0 1).1 1 = -1 ∧
    (BigIntNatives.Sub (BigIntNatives.Add (memOf [0, 0, 1]) 0 1).1 0 1).1 0
      ≠ memOf [0, 0, 1] 0 := by
  decide

/-- C20, amended. Sub undoes Add even across overflow: for every dst pair of
32-bit cells and every src pair that shares no cell with dst, `Add(dst, src)`
followed by `Sub(dst, src)` restores both cells of dst, and the whole data
segment; likewise `AddInt(dst, v)` followed by `SubInt(dst, v)` for every 32-bit
`v`. -/
theorem Add_Sub_restores (m : Mem) (dst src : Nat)
    (h0 : IsInt32 (m dst)) (h1 : IsInt32 (m (dst + 1)))
    (hsep : src + 1 < dst ∨ dst + 1 < src) :
    (BigIntNatives.Sub (BigIntNatives.Add m dst src).1 dst src).1 dst = m dst ∧
    (BigIntNatives.Sub (BigIntNatives.Add m dst src).1 dst src).1 (dst + 1) = m (dst + 1) ∧
    (BigIntNatives.Sub (BigIntNatives.Add m dst src).1 dst src).1 = m ∧
    (∀ v : Int, IsInt32 v →
      (BigIntNatives.SubInt (BigIntNatives.AddInt m dst v).1 dst v).1 dst = m dst ∧
      (BigIntNatives.SubInt (BigIntNatives.AddInt m dst v).1 dst v).1 (dst + 1)
        = m (dst + 1) ∧
      (BigIntNatives.SubInt (BigIntNatives.AddInt m dst v).1 dst v).1 = m) := by
  have hA : (BigIntNatives.Add m dst src).1 =
      BigInt_Write m dst (add64 (BigInt_Read m dst) (BigInt_Read m src)) := rfl
  have hS : ∀ m2 : Mem, (BigIntNatives.Sub m2 dst src).1 =
      BigInt_Write m2 dst (sub64 (BigInt_Read m2 dst) (BigInt_Read m2 src)) := fun _ => rfl
  have hAI : ∀ v : Int, (BigIntNatives.AddInt m dst v).1 =
      BigInt_Write m dst (add64 (BigInt_Read m dst) (toInt64 v)) := fun _ => rfl
  have hSI : ∀ (m2 : Mem) (v : Int), (BigIntNatives.SubInt m2 dst v).1 =
      BigInt_Write m2 dst (sub64 (BigInt_Read m2 dst) (toInt64 v)) := fun _ _ => rfl
  have hsrc : ∀ x, BigInt_Read (BigInt_Write m dst x) src = BigInt_Read m src := by
    intro x
    rw [BigInt_Read_eq, BigInt_Read_eq,
      BigInt_Write_other m dst x src (by omega) (by omega),
      BigInt_Write_other m dst x (src + 1) (by omega) (by omega)]
  have hR := BigInt_Read_cells m dst h1
  have hI := isInt64_BigInt_Read m dst
  unfold IsInt32 INT32_MIN INT32_MAX at h0 h1
  unfold IsInt64 INT64_MIN INT64_MAX at hI
  -- the value written back is the value dst had
  have back : ∀ b : Int,
      sub64 (toInt64 (add64 (BigInt_Read m dst) b)) b = BigInt_Read m dst := by
    intro b
    unfold sub64 add64 toInt64
    omega
  -- writing a value twice leaves what the last write leaves, here the old cells
  have cells : ∀ (m2 : Mem), (∀ q, q ≠ dst → q ≠ dst + 1 → m2 q = m q) →
      BigInt_Write m2 dst (BigInt_Read m dst) = m := by
    intro m2 hm2
    funext q
    by_cases e0 : q = dst
    · rw [e0, BigInt_Write_lo, hR]
      unfold toInt32
      omega
    · by_cases e1 : q = dst + 1
      · rw [e1, BigInt_Write_hi, hR]
        unfold toInt32
        omega
      · rw [BigInt_Write_other _ _ _ _ e0 e1]
        exact hm2 q e0 e1
  have whole : (BigIntNatives.Sub (BigIntNatives.Add m dst src).1 dst src).1 = m := by
    rw [hS, hA, BigInt_Read_Write, hsrc, back]
    exact cells _ (fun q e0 e1 => BigInt_Write_other _ _ _ _ e0 e1)
  have wholeI : ∀ v : Int,
      (BigIntNatives.SubInt (BigIntNatives.AddInt m dst v).1 dst v).1 = m := by
    intro v
    rw [hSI, hAI, BigInt_Read_Write, back]
    exact cells _ (fun q e0 e1 => BigInt_Write_other _ _ _ _ e0 e1)
  refine ⟨by rw [whole], by rw [whole], whole, ?_⟩
  intro v _
  exact ⟨by rw [wholeI], by rw [wholeI], wholeI v⟩

theorem Add_Sub_restores_witness :
    IsInt32 (memOf [-1, 2147483647, 1, 0] 0) ∧ IsInt32 (memOf [-1, 2147483647, 1, 0] 1) ∧
    BigInt_Read (memOf [-1, 2147483647, 1, 0]) 0 = INT64_MAX ∧
    BigInt_Read (BigIntNatives.Add (memOf [-1, 2147483647, 1, 0]) 0 2).1 0 = INT64_MIN ∧
    (BigIntNatives.Sub (BigIntNatives.Add (memOf [-1, 2147483647, 1, 0]) 0 2).1 0 2).1
      = memOf [-1, 2147483647, 1, 0] ∧
    (BigIntNatives.SubInt (BigIntNatives.AddInt (memOf [-1, 2147483647, 1, 0]) 0 5).1 0 5).1
      = memOf [-1, 2147483647, 1, 0] := by
  have h := Add_Sub_restores (memOf [-1, 2147483647, 1, 0]) 0 2 (by decide) (by decide)
    (by decide)
  exact ⟨by decide, by decide, by decide, by decide, h.2.2.1, (h.2.2.2 5 (by decide)).2.2⟩

/-! ## `std::to_string` and `ToString` -/

theorem digit_char (d : Nat) (h : d < 10) :
    isdigit (Char.ofNat (48 + d)) = true ∧ (Char.ofNat (48 + d)).toNat - 48 = d := by
  revert d
  decide

theorem digitsValue_snoc (ds : List Char) (c : Char) :
    digitsValue (ds ++ [c]) = 10 * digitsValue ds + (c.toNat - 48) := by
  simp [digitsValue, List.foldl_append]

/-- With enough fuel `decimalDigits` puts in front of the accumulator the
decimal digits of `n`: a non-empty run of digit characters whose value is `n`
and whose length is the number of decimal digits of `n`. -/
theorem decimalDigits_spec (fuel n : Nat) (acc : List Char) (h0 : 0 < fuel)
    (hf : n < 10 ^ fuel) :
    ∃ ds, decimalDigits fuel n acc = ds ++ acc ∧ ds ≠ [] ∧
      (∀ c ∈ ds, isdigit c = true) ∧ digitsValue ds = n ∧
      n < 10 ^ ds.length ∧ (n ≠ 0 → 10 ^ ds.length ≤ 10 * n) ∧
      (n = 0 → ds.length = 1) := by
  induction fuel generalizing n acc with
  | zero => omega
  | succ fuel ih =>
    obtain ⟨d1, d2⟩ := digit_char (n % 10) (Nat.mod_lt _ (by omega))
    unfold decimalDigits
    split
    · rename_i hz
      refine ⟨[Char.ofNat (48 + n % 10)], rfl, by simp, ?_, ?_, ?_, ?_, ?_⟩
      · intro c hc
        rw [List.mem_singleton] at hc
        rw [hc]
        exact d1
      · have e : digitsValue [Char.ofNat (48 + n % 10)]
            = (Char.ofNat (48 + n % 10)).toNat - 48 := by
          simp [digitsValue]
        rw [e, d2]
        omega
      · simp only [List.length_singleton, pow_one]
        omega
      · intro _
        simp only [List.length_singleton, pow_one]
        omega
      · intro _
        rfl
    · rename_i hz
      have hpow : 10 ^ (fuel + 1) = 10 ^ fuel * 10 := pow_succ 10 fuel
      have hq : n / 10 < 10 ^ fuel := by omega
      have hfuel : 0 < fuel := by
        rcases Nat.eq_zero_or_pos fuel with z | z
        · rw [z] at hq
          simp at hq
          omega
        · exact z
      obtain ⟨ds, e1, e2, e3, e4, e5, e6, -⟩ :=
        ih (n / 10) (Char.ofNat (48 + n % 10) :: acc) hfuel hq
      refine ⟨ds ++ [Char.ofNat (48 + n % 10)], ?_, by simp, ?_, ?_, ?_, ?_, ?_⟩
      · rw [e1]
        simp
      · intro c hc
        rw [List.mem_append, List.mem_singleton] at hc
        rcases hc with hc | hc
        · exact e3 c hc
        · rw [hc]
          exact d1
      · rw [digitsValue_snoc, e4, d2]
        omega
      · have hl : 10 ^ (ds ++ [Char.ofNat (48 + n % 10)]).length = 10 ^ ds.length * 10 := by
          rw [List.length_append, List.length_singleton]
          exact pow_succ 10 _
        rw [hl]
        omega
      · intro _
        have hl : 10 ^ (ds ++ [Char.ofNat (48 + n % 10)]).length = 10 ^ ds.length * 10 := by
          rw [List.length_append, List.length_singleton]
          exact pow_succ 10 _
        have := e6 hz
        rw [hl]
        omega
      · intro hn
        omega

/-- The text of a 64-bit value: an optional `-` and then the decimal digits of
the magnitude, at most 19 of them. -/
theorem to_string_spec (v : Int) (hv : IsInt64 v) :
    ∃ ds, to_string v = (if v < 0 then ['-'] else []) ++ ds ∧ ds ≠ [] ∧
      (∀ c ∈ ds, isdigit c = true) ∧ digitsValue ds = v.natAbs ∧
      v.natAbs < 10 ^ ds.length ∧ (v ≠ 0 → 10 ^ ds.length ≤ 10 * v.natAbs) ∧
      (v = 0 → ds.length = 1) ∧ ds.length ≤ 19 := by
  unfold IsInt64 INT64_MIN INT64_MAX at hv
  have h20 : (10 : Nat) ^ 20 = 100000000000000000000 := by norm_num
  obtain ⟨ds, e1, e2, e3, e4, e5, e6, e7⟩ :=
    decimalDigits_spec 20 v.natAbs [] (by omega) (by omega)
  rw [List.append_nil] at e1
  refine ⟨ds, ?_, e2, e3, e4, e5, ?_, ?_, ?_⟩
  · unfold to_string
    rw [e1]
    split_ifs <;> rfl
  · intro h
    exact e6 (by omega)
  · intro h
    exact e7 (by omega)
  · by_cases hz : v = 0
    · have := e7 (by omega)
      omega
    · have h1 := e6 (by omega)
      by_contra hlen
      have h2 : (10 : Nat) ^ 20 ≤ 10 ^ ds.length :=
        Nat.pow_le_pow_right (by omega) (by omega)
      omega

/-- The text of a 64-bit value has an integer prefix, all of it, of that value. -/
theorem to_string_parses (v : Int) (hv : IsInt64 v) : stoll (to_string v) = some v := by
  obtain ⟨ds, e1, e2, e3, e4, -, -, -, -⟩ := to_string_spec v hv
  have hval : signedValue (decide (v < 0)) ds = v := by
    unfold signedValue
    by_cases h : v < 0
    · simp only [h, decide_True, if_true, e4]
      omega
    · simp only [h, decide_False, Bool.false_eq_true, if_false, e4]
      omega
  have hp : HasIntegerPrefix (to_string v) (decide (v < 0)) ds := by
    refine ⟨[], if v < 0 then ['-'] else [], [], ?_, ?_, ?_, e2, e3, ?_⟩
    · rw [e1]
      simp
    · intro c hc
      simp at hc
    · by_cases h : v < 0
      · right
        right
        simp [h]
      · left
        simp [h]
    · intro c hc
      simp at hc
  have hr : INT64_MIN ≤ signedValue (decide (v < 0)) ds ∧
      signedValue (decide (v < 0)) ds ≤ INT64_MAX := by
    rw [hval]
    exact hv
  rw [stoll_prefix_value _ _ _ hp, if_pos hr, hval]

/-- C11. String round trip: `ToString` on a pair that decodes to `v` hands the
host's string write the text `to_string v` of `v`; with sufficient capacity that
is the text `FromString` is given, and on it, in every data segment (so also in
the one `ToString` leaves), `FromString` returns 1 and leaves its destination
decoding to `v`. This holds for every 64-bit `v`, the value of some pair;
`INT64_MIN` and `INT64_MAX` are shown with their texts. -/
theorem ToString_FromString_roundtrip
    (setString : Mem → Nat → List Char → Int → Mem)
    (m : Mem) (src dest : Nat) (cap : Int) (m1 : Mem) (dst : Nat) :
    (BigIntNatives.ToString setString m src dest cap).1
      = setString m dest (to_string (BigInt_Read m src)) cap ∧
    (BigIntNatives.FromString m1 dst (to_string (BigInt_Read m src))).2 = 1 ∧
    BigInt_Read (BigIntNatives.FromString m1 dst (to_string (BigInt_Read m src))).1 dst
      = BigInt_Read m src ∧
    (∀ v : Int, IsInt64 v →
      BigInt_Read (BigInt_Write m src v) src = v ∧
      (BigIntNatives.FromString m1 dst (to_string v)).2 = 1 ∧
      BigInt_Read (BigIntNatives.FromString m1 dst (to_string v)).1 dst = v) ∧
    to_string INT64_MIN = "-9223372036854775808".toList ∧
    to_string INT64_MAX = "9223372036854775807".toList := by
  have key : ∀ v : Int, IsInt64 v →
      (BigIntNatives.FromString m1 dst (to_string v)).2 = 1 ∧
      BigInt_Read (BigIntNatives.FromString m1 dst (to_string v)).1 dst = v := by
    intro v hv
    rw [(FromString_snd m1 dst (to_string v)).2.2 v (to_string_parses v hv)]
    refine ⟨rfl, ?_⟩
    rw [BigInt_Read_Write, toInt64_of_isInt64 (isInt64_toInt64 _), toInt64_of_isInt64 hv]
  have hsrc := key (BigInt_Read m src) (isInt64_BigInt_Read m src)
  refine ⟨rfl, hsrc.1, hsrc.2, ?_, by decide, by decide⟩
  intro v hv
  refine ⟨?_, key v hv⟩
  rw [BigInt_Read_Write, toInt64_of_isInt64 hv]

theorem ToString_FromString_roundtrip_witness :
    IsInt64 INT64_MIN ∧
    to_string INT64_MIN = "-9223372036854775808".toList ∧
    (BigIntNatives.FromString (memOf []) 0 (to_string INT64_MIN)).2 = 1 ∧
    BigInt_Read (BigIntNatives.FromString (memOf []) 0 (to_string INT64_MIN)).1 0
      = INT64_MIN := by
  have h := (ToString_FromString_roundtrip amx_SetString (memOf []) 0 2 32 (memOf []) 0).2.2.2.1
    INT64_MIN (by decide)
  exact ⟨by decide, by decide, h.2.1, h.2.2⟩

theorem writeChars_other (cs : List Char) (m : Mem) (dest q : Nat)
    (h : q < dest ∨ dest + cs.length ≤ q) : writeChars m dest cs q = m q := by
  induction cs generalizing m dest with
  | nil => rfl
  | cons c cs ih =>
    unfold writeChars
    rw [List.length_cons] at h
    rw [ih _ _ (by omega)]
    have hne : q ≠ dest := by omega
    simp only [storeCell, hne, if_false]

/-- The modelled string write touches only the cells from `dest[0]` to the end
cell `dest[min(len, size - 1)]`. -/
theorem amx_SetString_other (m : Mem) (dest : Nat) (s : List Char) (size : Int) (q : Nat)
    (h : q < dest ∨ dest + min s.length (size.toNat - 1) < q) :
    amx_SetString m dest s size q = m q := by
  unfold amx_SetString
  split
  · rfl
  · have hl : (s.take (min s.length (size.toNat - 1))).length
        = min s.length (size.toNat - 1) := by
      rw [List.length_take]
      omega
    have hne : q ≠ dest + min s.length (size.toNat - 1) := by omega
    simp only [storeCell, hne, if_false]
    exact writeChars_other _ _ _ _ (by omega)

/-- C15 as stated fails: when the destination of the text is the pair itself
(here a pair decoding to 5, capacity 8), `ToString` returns 1, the length of
`5`, and the pair afterwards holds the character code 53 and decodes to 53. -/
theorem ToString_overwrites_pair :
    BigInt_Read (memOf [5, 0, 0, 0]) 0 = 5 ∧
    (BigIntNatives.ToString amx_SetString (memOf [5, 0, 0, 0]) 0 0 8).2 = 1 ∧
    (BigIntNatives.ToString amx_SetString (memOf [5, 0, 0, 0]) 0 0 8).1 0 = 53 ∧
    BigInt_Read (BigIntNatives.ToString amx_SetString (memOf [5, 0, 0, 0]) 0 0 8).1 0
      = 53 := by
  decide

/-- C15, amended. ToString return value: for every pair decoding to `v`, every
capacity and every host string write, `ToString` returns the length of the full
base-10 signed decimal text of `v`: `k` plus 1 when `v < 0`, where `k` is the
number of decimal digits of `|v|` (`10^(k-1) ≤ |v| < 10^k`, and `k = 1` for
`v = 0`), so a number between 1 and 20 that does not depend on the capacity. The
only write is the host's string write into the destination: the pair is
unchanged whenever that write leaves its two cells alone, which for the modelled
`amx_SetString` and a capacity of at least 1 is the case when the pair lies
outside `dest[0 .. min(len, capacity - 1)]`. -/
theorem ToString_length (setString : Mem → Nat → List Char → Int → Mem)
    (m : Mem) (src dest : Nat) (cap : Int) :
    (BigIntNatives.ToString setString m src dest cap).2
      = ((to_string (BigInt_Read m src)).length : Int) ∧
    (∃ k : Nat, (BigIntNatives.ToString setString m src dest cap).2
        = (k : Int) + (if BigInt_Read m src < 0 then 1 else 0) ∧
      1 ≤ k ∧ k ≤ 19 ∧ (BigInt_Read m src).natAbs < 10 ^ k ∧
      (BigInt_Read m src ≠ 0 → 10 ^ k ≤ 10 * (BigInt_Read m src).natAbs) ∧
      (BigInt_Read m src = 0 → k = 1)) ∧
    1 ≤ (BigIntNatives.ToString setString m src dest cap).2 ∧
    (BigIntNatives.ToString setString m src dest cap).2 ≤ 20 ∧
    (∀ (setString2 : Mem → Nat → List Char → Int → Mem) (dest2 : Nat) (cap2 : Int),
      (BigIntNatives.ToString setString2 m src dest2 cap2).2
        = (BigIntNatives.ToString setString m src dest cap).2) ∧
    (BigIntNatives.ToString setString m src dest cap).1
      = setString m dest (to_string (BigInt_Read m src)) cap ∧
    (setString m dest (to_string (BigInt_Read m src)) cap src = m src →
      setString m dest (to_string (BigInt_Read m src)) cap (src + 1) = m (src + 1) →
      (BigIntNatives.ToString setString m src dest cap).1 src = m src ∧
      (BigIntNatives.ToString setString m src dest cap).1 (src + 1) = m (src + 1) ∧
      BigInt_Read (BigIntNatives.ToString setString m src dest cap).1 src
        = BigInt_Read m src) ∧
    (1 ≤ cap →
      src + 1 < dest ∨
        dest + min (to_string (BigInt_Read m src)).length (cap.toNat - 1) < src →
      (BigIntNatives.ToString amx_SetString m src dest cap).1 src = m src ∧
      (BigIntNatives.ToString amx_SetString m src dest cap).1 (src + 1) = m (src + 1)) := by
  have hT : ∀ (f : Mem → Nat → List Char → Int → Mem) (d : Nat) (c : Int),
      BigIntNatives.ToString f m src d c =
        (f m d (to_string (BigInt_Read m src)) c,
          toInt32 ((to_string (BigInt_Read m src)).length : Int)) := fun _ _ _ => rfl
  obtain ⟨ds, e1, e2, -, -, e5, e6, e7, e8⟩ :=
    to_string_spec (BigInt_Read m src) (isInt64_BigInt_Read m src)
  have hpos : 1 ≤ ds.length := by
    cases ds with
    | nil => exact absurd rfl e2
    | cons c r => simp
  have hlen : (to_string (BigInt_Read m src)).length
      = ds.length + (if BigInt_Read m src < 0 then 1 else 0) := by
    rw [e1]
    split_ifs <;> simp
  have hle : (to_string (BigInt_Read m src)).length ≤ 20 := by
    rw [hlen]
    split_ifs <;> omega
  have hge : 1 ≤ (to_string (BigInt_Read m src)).length := by
    rw [hlen]
    omega
  have hcell : toInt32 ((to_string (BigInt_Read m src)).length : Int)
      = ((to_string (BigInt_Read m src)).length : Int) := by
    unfold toInt32
    omega
  have hret : ∀ (f : Mem → Nat → List Char → Int → Mem) (d : Nat) (c : Int),
      (BigIntNatives.ToString f m src d c).2
        = ((to_string (BigInt_Read m src)).length : Int) := by
    intro f d c
    rw [hT]
    exact hcell
  refine ⟨hret _ _ _, ⟨ds.length, ?_, hpos, e8, e5, e6, e7⟩, ?_, ?_, ?_, ?_, ?_, ?_⟩
  · rw [hret, hlen]
    split_ifs <;> simp
  · rw [hret]
    omega
  · rw [hret]
    omega
  · intro f d c
    rw [hret, hret]
  · rw [hT]
  · intro k0 k1
    have hR : ∀ m2 : Mem, m2 src = m src → m2 (src + 1) = m (src + 1) →
        BigInt_Read m2 src = BigInt_Read m src := by
      intro m2 a b
      rw [BigInt_Read_eq, BigInt_Read_eq, a, b]
    rw [hT]
    exact ⟨k0, k1, hR _ k0 k1⟩
  · intro _ hsep
    rw [hT]
    exact ⟨amx_SetString_other _ _ _ _ _ (by omega), amx_SetString_other _ _ _ _ _ (by omega)⟩

theorem ToString_length_witness :
    BigInt_Read (memOf [-42, -1, 7, 7, 7, 7, 7]) 0 = -42 ∧
    (BigIntNatives.ToString amx_SetString (memOf [-42, -1, 7, 7, 7, 7, 7]) 0 2 8).2 = 3 ∧
    (BigIntNatives.ToString amx_SetString (memOf [-42, -1, 7, 7, 7, 7, 7]) 0 2 2).2 = 3 ∧
    (BigIntNatives.ToString amx_SetString (memOf [-42, -1, 7, 7, 7, 7, 7]) 0 2 8).1 0 = -42 ∧
    (BigIntNatives.ToString amx_SetString (memOf [-42, -1, 7, 7, 7, 7, 7]) 0 2 8).1 1
      = -1 := by
  have h := ToString_length amx_SetString (memOf [-42, -1, 7, 7, 7, 7, 7]) 0 2 8
  have hw := h.2.2.2.2.2.2.2 (by decide) (by decide)
  refine ⟨by decide, by decide, ?_, ?_, ?_⟩
  · rw [h.2.2.2.2.1 amx_SetString 2 2]
    decide
  · rw [hw.1]
    decide
  · rw [hw.2]
    decide
